import Mathlib

/- Verification development for the SQuAD 2.0 evaluation script
   (src/qa/squad_2_0_eval.py).

   Embedding conventions:
   - Python floats are modelled as Rat (every number the script manipulates is
     a ratio of machine integers, and the claims are about exact values).
   - Python dicts are modelled as association lists kept in insertion order;
     assignment to an existing key overwrites in place, assignment to a fresh
     key appends (dictInsert below).
   - Python exceptions (KeyError on a missing dict key, ZeroDivisionError) are
     modelled with Except String.
   - str.lower, string.punctuation, str.split() and the regex character class
     \w are modelled over their ASCII meaning.
   - File loading and JSON parsing are peripheral glue: the model of evaluate
     takes the already-parsed dataset, predictions and (optional) no-answer
     probability mapping.  Plotting and file writing are side effects with no
     influence on the returned mapping and are not modelled. -/

/-- Python dict lookup d.get(k): first (and in our usage only) binding of k. -/
def pyLookup {α : Type} : List (String × α) → String → Option α
  | [], _ => none
  | kv :: rest, k => if kv.1 = k then some kv.2 else pyLookup rest k

/-- Python dict subscript d[k]: raises KeyError when the key is absent. -/
def pyGet {α : Type} (m : List (String × α)) (k : String) : Except String α :=
  match pyLookup m k with
  | some v => Except.ok v
  | none => Except.error "KeyError"

/-- Python dict assignment d[k] = v: overwrite in place, else append. -/
def dictInsert {α : Type} (m : List (String × α)) (k : String) (v : α) :
    List (String × α) :=
  if (pyLookup m k).isSome then m.map (fun kv => if kv.1 = k then (k, v) else kv)
  else m ++ [(k, v)]

/-- ASCII model of str.lower, applied characterwise. -/
def lowerChar (c : Char) : Char :=
  if 65 ≤ c.toNat ∧ c.toNat ≤ 90 then Char.ofNat (c.toNat + 32) else c

/-- The helper lower of normalize_answer: text.lower(). -/
def pyLower (s : List Char) : List Char := s.map lowerChar

/-- Membership in string.punctuation (the 32 ASCII punctuation characters,
    code points 33-47, 58-64, 91-96, 123-126). -/
def isPunct (c : Char) : Bool :=
  (33 ≤ c.toNat && c.toNat ≤ 47) || (58 ≤ c.toNat && c.toNat ≤ 64) ||
  (91 ≤ c.toNat && c.toNat ≤ 96) || (123 ≤ c.toNat && c.toNat ≤ 126)

/-- The helper remove_punc of normalize_answer: drop punctuation characters. -/
def removePunc (s : List Char) : List Char := s.filter (fun c => !(isPunct c))

/-- ASCII model of the regex class \w (letters, digits, underscore), which
    determines the word boundaries \b of the article regex. -/
def isWordChar (c : Char) : Bool :=
  (48 ≤ c.toNat && c.toNat ≤ 57) || (65 ≤ c.toNat && c.toNat ≤ 90) ||
  (97 ≤ c.toNat && c.toNat ≤ 122) || (c.toNat == 95)

/-- Whether a word (maximal run of word characters) is one of the articles
    a, an, the of the regex alternation. -/
def isArticle (w : List Char) : Bool :=
  w == ['a'] || w == ['a', 'n'] || w == ['t', 'h', 'e']

/-- Emit an accumulated word: an article becomes a single space (the regex
    replacement string of re.sub), any other word is kept. -/
def raFlush (cur : List Char) : List Char :=
  if cur = [] then [] else if isArticle cur then [' '] else cur

/-- Scanner for remove_articles: accumulate the current run of word
    characters, flush it at every word boundary. -/
def raGo (cur : List Char) : List Char → List Char
  | [] => raFlush cur
  | c :: cs =>
    if isWordChar c then raGo (cur ++ [c]) cs
    else raFlush cur ++ c :: raGo [] cs

/-- The helper remove_articles of normalize_answer:
    re.sub of the pattern \b(a|an|the)\b by a single space.  Since the
    alternatives are whole words between boundaries, the substitution replaces
    exactly the maximal word-character runs equal to a, an or the. -/
def removeArticles (s : List Char) : List Char := raGo [] s

/-- Python str.split() whitespace (ASCII): space, tab, newline, vertical tab,
    form feed, carriage return. -/
def pyIsSpace (c : Char) : Bool := c.toNat == 32 || (9 ≤ c.toNat && c.toNat ≤ 13)

/-- Scanner splitting a string into its maximal runs of characters satisfying
    p, discarding the separators. -/
def srGo (p : Char → Bool) (cur : List Char) : List Char → List (List Char)
  | [] => if cur = [] then [] else [cur]
  | c :: cs =>
    if p c then srGo p (cur ++ [c]) cs
    else if cur = [] then srGo p [] cs else cur :: srGo p [] cs

/-- Maximal runs of characters satisfying p. -/
def splitRuns (p : Char → Bool) (s : List Char) : List (List Char) :=
  srGo p [] s

/-- Python str.split() with no argument: maximal runs of non-whitespace. -/
def pySplit (s : List Char) : List (List Char) :=
  splitRuns (fun c => !pyIsSpace c) s

/-- The maximal word-character runs of a string (the candidate match sites of
    the article regex); used to reason about remove_articles. -/
def wordRuns (s : List Char) : List (List Char) := splitRuns isWordChar s

/-- A string has no article left standing: none of its maximal
    word-character runs is a, an or the.  This is exactly the condition under
    which the article regex of remove_articles has no match. -/
def noArt (s : List Char) : Prop := ∀ w ∈ wordRuns s, isArticle w = false

/-- Join words with single spaces: the helper white_space_fix is
    a space joined over text.split(). -/
def joinWords : List (List Char) → List Char
  | [] => []
  | [w] => w
  | w :: ws => w ++ ' ' :: joinWords ws

/-- The helper white_space_fix of normalize_answer. -/
def white_space_fix (s : List Char) : List Char := joinWords (pySplit s)

/-- normalize_answer on character lists: lower, remove punctuation, remove
    articles, collapse whitespace — in the order of line 41 of the source. -/
def normalizeL (s : List Char) : List Char :=
  white_space_fix (removeArticles (removePunc (pyLower s)))

/-- normalize_answer (lines 24-41). -/
def normalize_answer (s : String) : String := String.mk (normalizeL s.data)

/-- get_tokens (lines 44-47): empty string gives no tokens, otherwise the
    whitespace-split of the normalized string. -/
def get_tokens (s : String) : List (List Char) :=
  if s.data = [] then [] else pySplit (normalizeL s.data)

/-- compute_exact (lines 50-51): 1 when the normalized forms coincide. -/
def compute_exact (a_gold a_pred : String) : Rat :=
  if normalize_answer a_gold = normalize_answer a_pred then 1 else 0

/-- Distinct elements of a token list (order irrelevant; used to sum the
    Counter intersection once per distinct token). -/
def dedupToks : List (List Char) → List (List Char)
  | [] => []
  | t :: ts => if t ∈ ts then dedupToks ts else t :: dedupToks ts

/-- Size of the multiset intersection of two token lists:
    sum over distinct tokens of the minimum of the occurrence counts — the
    value of sum((Counter(g) and Counter(p)).values()) at line 57-58. -/
def numSame (g p : List (List Char)) : Nat :=
  ((dedupToks g).map (fun t => min (g.count t) (p.count t))).sum

/-- compute_f1 (lines 54-67). -/
def compute_f1 (a_gold a_pred : String) : Rat :=
  let gold_toks := get_tokens a_gold
  let pred_toks := get_tokens a_pred
  let num_same := numSame gold_toks pred_toks
  if gold_toks.length = 0 ∨ pred_toks.length = 0 then
    if gold_toks = pred_toks then 1 else 0
  else if num_same = 0 then 0
  else
    let p : Rat := (num_same : Rat) / pred_toks.length
    let r : Rat := (num_same : Rat) / gold_toks.length
    2 * p * r / (p + r)

/-- One question-answer object of the dataset: an id and the list of gold
    answer texts (the text fields of the answers list). -/
structure QAItem where
  id : String
  answers : List String

/-- One dataset paragraph: a list of question-answer objects. -/
structure Paragraph where
  qas : List QAItem

/-- make_qid_to_has_ans (lines 16-21): a question has an answer when its
    answers list is nonempty. -/
def make_qid_to_has_ans (dataset : List Paragraph) : List (String × Bool) :=
  dataset.foldl
    (fun m p => p.qas.foldl (fun m qa => dictInsert m qa.id (!qa.answers.isEmpty)) m)
    []

/-- Python max over a nonempty list (get_raw_scores always applies it to a
    nonempty list of gold candidates; the empty case is unreachable). -/
def maxRat : List Rat → Rat
  | [] => 0
  | x :: xs => xs.foldl max x

/-- Loop body of get_raw_scores for one question-answer object. -/
def grsQA (preds : List (String × String))
    (acc : List (String × Rat) × List (String × Rat)) (qa : QAItem) :
    List (String × Rat) × List (String × Rat) :=
  let golds0 := qa.answers.filter (fun a => normalize_answer a != "")
  let golds := if golds0 = [] then [""] else golds0
  match pyLookup preds qa.id with
  | none => acc
  | some a_pred =>
    (dictInsert acc.1 qa.id (maxRat (golds.map (fun a => compute_exact a a_pred))),
     dictInsert acc.2 qa.id (maxRat (golds.map (fun a => compute_f1 a a_pred))))

/-- get_raw_scores (lines 70-89): per-question exact and F1 scores, taking the
    maximum over the gold answers whose normalized form is nonempty (with the
    empty string substituted when none remain), and skipping questions that
    have no prediction. -/
def get_raw_scores (dataset : List Paragraph) (preds : List (String × String)) :
    List (String × Rat) × List (String × Rat) :=
  dataset.foldl (fun acc p => p.qas.foldl (grsQA preds) acc) ([], [])

/-- apply_no_ans_threshold (lines 92-100): na_probs[qid] and (in the
    pred_na branch) qid_to_has_ans[qid] are Python subscripts that raise
    KeyError on a missing key. -/
def apply_no_ans_threshold (scores na_probs : List (String × Rat))
    (qid_to_has_ans : List (String × Bool)) (na_prob_thresh : Rat) :
    Except String (List (String × Rat)) :=
  scores.mapM (fun kv => do
    let p ← pyGet na_probs kv.1
    if p > na_prob_thresh then do
      let h ← pyGet qid_to_has_ans kv.1
      pure (kv.1, if h then (0 : Rat) else 1)
    else
      pure (kv.1, kv.2))

/-- Pointwise description of the loop body of apply_no_ans_threshold, used to
    state claim C3: override the score to 1.0 or 0.0 when the no-answer
    probability strictly exceeds the threshold, keep the entry unchanged
    otherwise.  The getD defaults stand in for the KeyError cases of the
    source and are never exercised under the hypotheses of claim_C3, which
    require every scored id to carry a probability and a has-answer flag. -/
def applyAdj (na_probs : List (String × Rat)) (q2h : List (String × Bool))
    (t : Rat) (kv : String × Rat) : String × Rat :=
  if (pyLookup na_probs kv.1).getD 0 > t then
    (kv.1, if (pyLookup q2h kv.1).getD true then (0 : Rat) else 1)
  else kv

/-- Sum of scores over an explicit qid list (the generator sums in the second
    branch of make_eval_dict); a qid with no score raises KeyError. -/
def sumScores (m : List (String × Rat)) (qids : List String) : Except String Rat :=
  qids.foldlM (fun acc k => do pure (acc + (← pyGet m k))) 0

/-- First branch of make_eval_dict (lines 104-112), reached when qid_list is
    None or empty: averages over all scored questions, dividing by
    len(exact_scores), which raises ZeroDivisionError when no question was
    scored. -/
def makeEvalAll (exact_scores f1_scores : List (String × Rat)) :
    Except String (List (String × Rat)) :=
  let total := exact_scores.length
  if total = 0 then Except.error "ZeroDivisionError"
  else
    Except.ok [("exact", 100 * (exact_scores.map Prod.snd).sum / total),
               ("f1", 100 * (f1_scores.map Prod.snd).sum / total),
               ("total", (total : Rat))]

/-- make_eval_dict (lines 103-121).  A None or empty qid_list selects the
    all-questions branch (Python tests falsiness of qid_list). -/
def make_eval_dict (exact_scores f1_scores : List (String × Rat))
    (qid_list : Option (List String)) : Except String (List (String × Rat)) :=
  match qid_list with
  | none => makeEvalAll exact_scores f1_scores
  | some l =>
    if l = [] then makeEvalAll exact_scores f1_scores
    else do
      let total := l.length
      let se ← sumScores exact_scores l
      let sf ← sumScores f1_scores l
      pure [("exact", 100 * se / total), ("f1", 100 * sf / total),
            ("total", (total : Rat))]

/-- merge_eval (lines 124-126): copy every entry of new_eval into main_eval
    under the prefixed key. -/
def merge_eval (main_eval new_eval : List (String × Rat)) (pre : String) :
    List (String × Rat) :=
  new_eval.foldl (fun m kv => dictInsert m (pre ++ "_" ++ kv.1) kv.2) main_eval

/-- Stable insertion of an entry after all entries of smaller or equal value;
    building block of the model of Python sorted with a value key. -/
def insertByVal (x : String × Rat) : List (String × Rat) → List (String × Rat)
  | [] => [x]
  | y :: ys => if y.2 ≤ x.2 then y :: insertByVal x ys else x :: y :: ys

/-- Python sorted(na_probs, key=lambda k: na_probs[k]): the keys in ascending
    order of value, stable on insertion order. -/
def sortByVal (l : List (String × Rat)) : List (String × Rat) :=
  l.foldl (fun acc x => insertByVal x acc) []

/-- Loop of make_precision_recall_eval (lines 151-160).  State: remaining
    sorted qids, number of processed qids, running true positive mass, recall
    of the last emitted point, accumulated average precision.  A point is
    emitted at the end and wherever the probability differs from the next
    qid.  The division by num_true_pos raises ZeroDivisionError when it is
    zero (the caller guards this). -/
def prLoop (scores na_probs : List (String × Rat)) (q2h : List (String × Bool))
    (ntp : Nat) :
    List String → Nat → Rat → Rat → Rat → Except String Rat
  | [], _, _, _, avg => Except.ok avg
  | qid :: rest, i, tp, lastR, avg => do
    let h ← pyGet q2h qid
    let tp ← if h then do pure (tp + (← pyGet scores qid)) else pure tp
    let curP : Rat := tp / ((i : Rat) + 1)
    if ntp = 0 then Except.error "ZeroDivisionError"
    else do
      let curR : Rat := tp / (ntp : Rat)
      let emit ← (match rest with
        | [] => pure true
        | q2 :: _ => do
          let p1 ← pyGet na_probs qid
          let p2 ← pyGet na_probs q2
          pure (decide (p1 ≠ p2)))
      if emit then
        prLoop scores na_probs q2h ntp rest (i + 1) tp curR (avg + curP * (curR - lastR))
      else
        prLoop scores na_probs q2h ntp rest (i + 1) tp lastR avg

/-- make_precision_recall_eval (lines 141-163): returns the dict with the
    single key ap holding 100 times the average precision.  Plotting is a side
    effect and is not modelled. -/
def make_precision_recall_eval (scores na_probs : List (String × Rat))
    (num_true_pos : Nat) (qid_to_has_ans : List (String × Bool)) :
    Except String (List (String × Rat)) := do
  let qid_list := (sortByVal na_probs).map Prod.fst
  let avg ← prLoop scores na_probs qid_to_has_ans num_true_pos qid_list 0 0 0 0
  pure [("ap", 100 * avg)]

/-- run_precision_recall_analysis (lines 166-202): when no question has an
    answer, print a diagnostic and return without touching main_eval;
    otherwise merge the three average precisions under the pr_exact, pr_f1
    and pr_oracle prefixes.  Directory creation and image output are side
    effects and are not modelled. -/
def run_precision_recall_analysis (main_eval exact_raw f1_raw na_probs :
    List (String × Rat)) (qid_to_has_ans : List (String × Bool)) :
    Except String (List (String × Rat)) :=
  let num_true_pos := (qid_to_has_ans.filter (fun kv => kv.2)).length
  if num_true_pos = 0 then Except.ok main_eval
  else do
    let pr_exact ← make_precision_recall_eval exact_raw na_probs num_true_pos qid_to_has_ans
    let pr_f1 ← make_precision_recall_eval f1_raw na_probs num_true_pos qid_to_has_ans
    let oracle_scores := qid_to_has_ans.map (fun kv => (kv.1, if kv.2 then (1 : Rat) else 0))
    let pr_oracle ← make_precision_recall_eval oracle_scores na_probs num_true_pos qid_to_has_ans
    pure (merge_eval (merge_eval (merge_eval main_eval pr_exact "pr_exact")
      pr_f1 "pr_f1") pr_oracle "pr_oracle")

/-- Loop of find_best_thresh (lines 211-224).  State: remaining sorted qids,
    running score, best score, best threshold.  A qid without a score entry is
    skipped; qid_to_has_ans, preds and na_probs are Python subscripts. -/
def fbtLoop (preds : List (String × String)) (scores na_probs : List (String × Rat))
    (q2h : List (String × Bool)) :
    List String → Rat → Rat → Rat → Except String (Rat × Rat)
  | [], _, best, bthresh => Except.ok (best, bthresh)
  | qid :: rest, cur, best, bthresh =>
    match pyLookup scores qid with
    | none => fbtLoop preds scores na_probs q2h rest cur best bthresh
    | some sc => do
      let h ← pyGet q2h qid
      let diff ← if h then pure sc
        else do
          let pr ← pyGet preds qid
          pure (if pr = "" then (0 : Rat) else -1)
      let cur2 := cur + diff
      if cur2 > best then do
        let th ← pyGet na_probs qid
        fbtLoop preds scores na_probs q2h rest cur2 cur2 th
      else fbtLoop preds scores na_probs q2h rest cur2 best bthresh

/-- find_best_thresh (lines 205-225): baseline score is the count of
    no-answer questions, the sweep visits qids in ascending order of
    no-answer probability, and the result is the best score as a percentage
    of len(scores) (ZeroDivisionError when scores is empty) together with the
    best threshold, initially 0.0. -/
def find_best_thresh (preds : List (String × String))
    (scores na_probs : List (String × Rat))
    (qid_to_has_ans : List (String × Bool)) : Except String (Rat × Rat) := do
  let num_no_ans := (qid_to_has_ans.filter (fun kv => !kv.2)).length
  let qid_list := (sortByVal na_probs).map Prod.fst
  let bs ← fbtLoop preds scores na_probs qid_to_has_ans qid_list
    (num_no_ans : Rat) (num_no_ans : Rat) 0
  if scores.length = 0 then Except.error "ZeroDivisionError"
  else pure (100 * bs.1 / (scores.length : Rat), bs.2)

/-- find_all_best_thresh (lines 228-236): store both sweeps in main_eval
    under the keys best_exact, best_exact_thresh, best_f1, best_f1_thresh.
    (In the source this function is never called by evaluate.) -/
def find_all_best_thresh (main_eval : List (String × Rat))
    (preds : List (String × String)) (exact_raw f1_raw na_probs : List (String × Rat))
    (qid_to_has_ans : List (String × Bool)) :
    Except String (List (String × Rat)) := do
  let be ← find_best_thresh preds exact_raw na_probs qid_to_has_ans
  let bf ← find_best_thresh preds f1_raw na_probs qid_to_has_ans
  pure (dictInsert (dictInsert (dictInsert (dictInsert main_eval
    "best_exact" be.1) "best_exact_thresh" be.2) "best_f1" bf.1) "best_f1_thresh" bf.2)

/-- evaluate (lines 239-282) on already-parsed inputs.  na_probs_file is the
    parsed content of the optional no-answer probability file.  Line 256
    unconditionally rebinds na_probs to the all-zero mapping over the
    prediction ids, shadowing whatever was loaded at lines 252-254, so the
    loaded mapping is dead from that point on; the same rebound variable is
    what the precision-recall analysis receives at line 273.  The na
    threshold of the two apply_no_ans_threshold calls is the constant 1.0.
    File output (save_f1_thres) and plotting are side effects and are not
    modelled; the Python return value is (out_eval[exact], out_eval[f1],
    out_eval), of which we model the mapping out_eval. -/
def evaluate (dataset : List Paragraph) (preds : List (String × String))
    (na_probs_file : Option (List (String × Rat))) :
    Except String (List (String × Rat)) := do
  let na_probs := match na_probs_file with
    | some loaded => loaded
    | none => []
  let na_probs := preds.map (fun kv => (kv.1, (0 : Rat)))
  let qid_to_has_ans := make_qid_to_has_ans dataset
  let has_ans_qids := (qid_to_has_ans.filter (fun kv => kv.2)).map Prod.fst
  let no_ans_qids := (qid_to_has_ans.filter (fun kv => !kv.2)).map Prod.fst
  let raw := get_raw_scores dataset preds
  let exact_raw := raw.1
  let f1_raw := raw.2
  let exact_thresh ← apply_no_ans_threshold exact_raw na_probs qid_to_has_ans 1
  let f1_thresh ← apply_no_ans_threshold f1_raw na_probs qid_to_has_ans 1
  let out0 ← make_eval_dict exact_thresh f1_thresh none
  let out1 ← if has_ans_qids = [] then pure out0 else do
      let h ← make_eval_dict exact_thresh f1_thresh (some has_ans_qids)
      pure (merge_eval out0 h "HasAns")
  let out2 ← if no_ans_qids = [] then pure out1 else do
      let h ← make_eval_dict exact_thresh f1_thresh (some no_ans_qids)
      pure (merge_eval out1 h "NoAns")
  match na_probs_file with
  | some _ =>
    run_precision_recall_analysis out2 exact_raw f1_raw na_probs qid_to_has_ans
  | none => pure out2

/-! Helper lemmas about the dictionary and loop primitives. -/

theorem exceptBind_error {α β : Type} (e : String) (f : α → Except String β) :
    (Except.error e >>= f) = Except.error e := rfl

theorem exceptBind_ok {α β : Type} (a : α) (f : α → Except String β) :
    (Except.ok a >>= f) = f a := rfl

theorem foldl_const {α β : Type} (f : α → β → α) (h : ∀ a b, f a b = a) :
    ∀ (l : List β) (a : α), l.foldl f a = a := by
  intro l
  induction l with
  | nil => intro a; rfl
  | cons x xs ih => intro a; rw [List.foldl_cons, h, ih]

theorem pyLookup_append_ne {α : Type} (m : List (String × α)) (q k : String)
    (v : α) (h : k ≠ q) : pyLookup (m ++ [(q, v)]) k = pyLookup m k := by
  induction m with
  | nil => simp [pyLookup]; exact fun hqk => h hqk.symm
  | cons kv rest ih =>
    by_cases hk : kv.1 = k
    · simp [pyLookup, hk]
    · simp [pyLookup, hk, ih]

theorem insertByVal_perm (x : String × Rat) (l : List (String × Rat)) :
    (insertByVal x l).Perm (x :: l) := by
  induction l with
  | nil => exact List.Perm.refl _
  | cons y ys ih =>
    by_cases hle : y.2 ≤ x.2
    · simp only [insertByVal, if_pos hle]
      exact ((ih.cons y).trans (List.Perm.swap x y ys))
    · simp only [insertByVal, if_neg hle]
      exact List.Perm.refl _

theorem sortByVal_perm (l : List (String × Rat)) : (sortByVal l).Perm l := by
  have main : ∀ (l acc : List (String × Rat)),
      (l.foldl (fun acc x => insertByVal x acc) acc).Perm (acc ++ l) := by
    intro l
    induction l with
    | nil => intro acc; simp
    | cons x xs ih =>
      intro acc
      rw [List.foldl_cons]
      refine (ih (insertByVal x acc)).trans ?_
      refine (List.Perm.append_right xs (insertByVal_perm x acc)).trans ?_
      exact List.perm_middle.symm
  simpa using main l []

theorem mem_keys_sortByVal (na : List (String × Rat)) (q : String)
    (h : q ∈ (sortByVal na).map Prod.fst) : q ∈ na.map Prod.fst :=
  ((sortByVal_perm na).map Prod.fst).mem_iff.mp h

/-! Claim C5: the worked F1 example of the spec. -/

/-- C5 counterexample: on gold a b c and prediction b c d, compute_f1 does
    not return 2/3 as the spec computes. -/
theorem claim_C5_counterexample : compute_f1 "a b c" "b c d" ≠ 2 / 3 := by
  with_unfolding_all decide

/-- C5 amended: normalize_answer removes the article a from the gold, leaving
    gold tokens b, c; so num_same = 2, precision = 2/3, recall = 1, and
    compute_f1 returns 4/5. -/
theorem claim_C5_amended :
    get_tokens "a b c" = [['b'], ['c']] ∧
    get_tokens "b c d" = [['b'], ['c'], ['d']] ∧
    numSame (get_tokens "a b c") (get_tokens "b c d") = 2 ∧
    compute_f1 "a b c" "b c d" = 4 / 5 := by
  refine ⟨by decide, by decide, by decide, by with_unfolding_all rfl⟩

/-! Claim C4: the empty-token edge policy of compute_f1. -/

/-- C4: when either token sequence is empty, compute_f1 is 1 exactly when
    both are empty and 0 otherwise; in particular on the three concrete pairs
    of the spec. -/
theorem claim_C4 :
    (∀ gold pred : String, get_tokens gold = [] ∨ get_tokens pred = [] →
      compute_f1 gold pred =
        (if get_tokens gold = [] ∧ get_tokens pred = [] then 1 else 0)) ∧
    compute_f1 "" "" = 1 ∧ compute_f1 "" "something" = 0 ∧
    compute_f1 "something" "" = 0 := by
  refine ⟨?_, by with_unfolding_all rfl, by with_unfolding_all rfl,
    by with_unfolding_all rfl⟩
  intro gold pred h
  have hlen : (get_tokens gold).length = 0 ∨ (get_tokens pred).length = 0 := by
    rcases h with h | h <;> [left; right] <;> simp [h]
  rw [compute_f1]
  simp only [if_pos hlen]
  rcases h with h | h
  · by_cases hp : get_tokens pred = []
    · simp [h, hp]
    · simp [h, hp, Ne.symm hp]
  · by_cases hg : get_tokens gold = []
    · simp [h, hg]
    · simp [h, hg]

/-- C4 witness: the general statement applied at gold = empty string,
    pred = xyz. -/
theorem claim_C4_witness :
    compute_f1 "" "xyz" =
      (if get_tokens "" = [] ∧ get_tokens "xyz" = [] then 1 else 0) :=
  claim_C4.1 "" "xyz" (Or.inl (by decide))

/-! Claim C8: the precision-recall analysis is skipped when no question has
    an answer. -/

/-- Shared helper: the guard of run_precision_recall_analysis returns
    main_eval untouched when no question has an answer. -/
theorem runPR_skip (main_eval exact_raw f1_raw na_probs : List (String × Rat))
    (qid_to_has_ans : List (String × Bool))
    (h : (qid_to_has_ans.filter (fun kv => kv.2)).length = 0) :
    run_precision_recall_analysis main_eval exact_raw f1_raw na_probs
      qid_to_has_ans = Except.ok main_eval := by
  rw [run_precision_recall_analysis]
  simp [h]

/-- C8: when the count of has-answer questions is zero,
    run_precision_recall_analysis returns main_eval unchanged: nothing is
    scored and no pr key is added. -/
theorem claim_C8 (main_eval exact_raw f1_raw na_probs : List (String × Rat))
    (qid_to_has_ans : List (String × Bool))
    (h : (qid_to_has_ans.filter (fun kv => kv.2)).length = 0) :
    run_precision_recall_analysis main_eval exact_raw f1_raw na_probs
      qid_to_has_ans = Except.ok main_eval :=
  runPR_skip main_eval exact_raw f1_raw na_probs qid_to_has_ans h

/-- C8 witness: a run with one no-answer question. -/
theorem claim_C8_witness :
    run_precision_recall_analysis [("exact", 100)] [("q1", 0)] [("q1", 0)]
      [("q1", 1/2)] [("q1", false)] = Except.ok [("exact", 100)] :=
  claim_C8 [("exact", 100)] [("q1", 0)] [("q1", 0)] [("q1", 1/2)]
    [("q1", false)] (by decide)

/-! Claim C3: the contract of apply_no_ans_threshold. -/

/-- The adjusting map keeps every question id in place. -/
theorem map_fst_applyAdj (na_probs : List (String × Rat))
    (q2h : List (String × Bool)) (t : Rat) (scores : List (String × Rat)) :
    (scores.map (applyAdj na_probs q2h t)).map Prod.fst =
      scores.map Prod.fst := by
  induction scores with
  | nil => rfl
  | cons kv rest ih =>
    simp only [List.map_cons, ih, List.cons.injEq, and_true]
    rw [applyAdj]
    by_cases hgt : (pyLookup na_probs kv.1).getD 0 > t
    · simp [hgt]
    · simp [hgt]

/-- C3: when every scored id has a no-answer probability and a has-answer
    flag, apply_no_ans_threshold succeeds and returns exactly the pointwise
    adjustment applyAdj — scores with probability strictly above the
    threshold are overridden to 1.0 (genuinely no-answer) or 0.0 (has an
    answer), every other entry is kept unchanged — and the ids of the output
    are the ids of the input, in the same order and hence as sets. -/
theorem claim_C3 (scores na_probs : List (String × Rat))
    (q2h : List (String × Bool)) (t : Rat)
    (hna : ∀ kv ∈ scores, (pyLookup na_probs kv.1).isSome = true)
    (hha : ∀ kv ∈ scores, (pyLookup q2h kv.1).isSome = true) :
    apply_no_ans_threshold scores na_probs q2h t =
      Except.ok (scores.map (applyAdj na_probs q2h t)) ∧
    (scores.map (applyAdj na_probs q2h t)).map Prod.fst =
      scores.map Prod.fst ∧
    (∀ q, q ∈ (scores.map (applyAdj na_probs q2h t)).map Prod.fst ↔
      q ∈ scores.map Prod.fst) := by
  refine ⟨?_, map_fst_applyAdj na_probs q2h t scores,
    fun q => by rw [map_fst_applyAdj]⟩
  induction scores with
  | nil => rfl
  | cons kv rest ih =>
    have hkv : kv ∈ kv :: rest := List.mem_cons_self kv rest
    rcases Option.isSome_iff_exists.mp (hna kv hkv) with ⟨p, hp⟩
    rcases Option.isSome_iff_exists.mp (hha kv hkv) with ⟨hb, hhb⟩
    have ihr := ih (fun x hx => hna x (List.mem_cons_of_mem kv hx))
      (fun x hx => hha x (List.mem_cons_of_mem kv hx))
    rw [apply_no_ans_threshold] at ihr ⊢
    have hgp : pyGet na_probs kv.1 = Except.ok p := by simp [pyGet, hp]
    have hgb : pyGet q2h kv.1 = Except.ok hb := by simp [pyGet, hhb]
    rw [List.mapM_cons]
    rw [hgp, exceptBind_ok]
    by_cases hgt : p > t
    · rw [if_pos hgt, hgb, exceptBind_ok, pure_bind, ihr, exceptBind_ok,
        List.map_cons]
      simp only [applyAdj, hp, hhb, Option.getD_some, if_pos hgt]
      rfl
    · rw [if_neg hgt, pure_bind, ihr, exceptBind_ok, List.map_cons]
      simp only [applyAdj, hp, Option.getD_some, if_neg hgt]
      rfl

/-- C3 witness: a two-question run in which q1 (probability 2, threshold 1,
    genuinely no-answer) is overridden to 1.0 and q2 keeps its score. -/
theorem claim_C3_witness :
    apply_no_ans_threshold [("q1", 5), ("q2", 7)] [("q1", 2), ("q2", 0)]
        [("q1", false), ("q2", true)] 1 =
      Except.ok ([("q1", 5), ("q2", 7)].map
        (applyAdj [("q1", 2), ("q2", 0)] [("q1", false), ("q2", true)] 1)) ∧
    ([("q1", (5 : Rat)), ("q2", 7)].map
        (applyAdj [("q1", 2), ("q2", 0)] [("q1", false), ("q2", true)] 1)).map
        Prod.fst = [("q1", (5 : Rat)), ("q2", 7)].map Prod.fst ∧
    (∀ q, q ∈ ([("q1", (5 : Rat)), ("q2", 7)].map
        (applyAdj [("q1", 2), ("q2", 0)] [("q1", false), ("q2", true)] 1)).map
        Prod.fst ↔ q ∈ [("q1", (5 : Rat)), ("q2", 7)].map Prod.fst) :=
  claim_C3 [("q1", 5), ("q2", 7)] [("q1", 2), ("q2", 0)]
    [("q1", false), ("q2", true)] 1 (by decide) (by decide)

/-! Claim C7: the all-reject baseline is optimal when every question is
    no-answer and every prediction empty. -/

theorem pyLookup_mem {α : Type} (m : List (String × α)) (q : String) (v : α)
    (h : pyLookup m q = some v) : (q, v) ∈ m := by
  induction m with
  | nil => exact absurd h (by simp [pyLookup])
  | cons kv rest ih =>
    by_cases hk : kv.1 = q
    · rw [pyLookup, if_pos hk] at h
      have : kv = (q, v) := by
        cases kv
        simp_all
      exact this ▸ List.mem_cons_self kv rest
    · rw [pyLookup, if_neg hk] at h
      exact List.mem_cons_of_mem kv (ih h)

theorem pyLookup_isSome_iff_mem {α : Type} (m : List (String × α)) (q : String) :
    (pyLookup m q).isSome = true ↔ q ∈ m.map Prod.fst := by
  induction m with
  | nil => simp [pyLookup]
  | cons kv rest ih =>
    by_cases hk : kv.1 = q
    · simp [pyLookup, hk]
    · rw [pyLookup, if_neg hk]
      simp only [List.map_cons, List.mem_cons]
      rw [ih]
      constructor
      · exact fun h => Or.inr h
      · rintro (h | h)
        · exact absurd h.symm hk
        · exact h

theorem filter_all {α : Type} (p : α → Bool) :
    ∀ l : List α, (∀ a ∈ l, p a = true) → l.filter p = l := by
  intro l
  induction l with
  | nil => intro _; rfl
  | cons x xs ih =>
    intro h
    rw [List.filter_cons, if_pos (h x (List.mem_cons_self x xs)),
      ih (fun a ha => h a (List.mem_cons_of_mem x ha))]

/-- When every question in q2h is no-answer and every relevant prediction is
    the empty string, each sweep step contributes 0, so the running score and
    the best threshold never move. -/
theorem fbtLoop_all_noans (preds : List (String × String))
    (scores na_probs : List (String × Rat)) (q2h : List (String × Bool))
    (hstep : ∀ qid, (pyLookup scores qid).isSome = true →
      pyGet q2h qid = Except.ok false ∧ pyGet preds qid = Except.ok "") :
    ∀ (l : List String) (cur th : Rat),
      fbtLoop preds scores na_probs q2h l cur cur th = Except.ok (cur, th) := by
  intro l
  induction l with
  | nil => intro cur th; rfl
  | cons qid rest ih =>
    intro cur th
    rw [fbtLoop]
    cases hsc : pyLookup scores qid with
    | none => exact ih cur th
    | some sc =>
      obtain ⟨hq2, hpr⟩ := hstep qid (by rw [hsc]; rfl)
      dsimp only
      rw [hq2, exceptBind_ok]
      simp only [Bool.false_eq_true, if_false]
      rw [hpr, exceptBind_ok]
      have hz : (if ("" : String) = "" then (0 : Rat) else -1) = 0 := if_pos rfl
      rw [hz, pure_bind]
      simp only [add_zero, gt_iff_lt, lt_self_iff_false, if_false]
      exact ih cur th

/-- C7: on an input in which every question of qid_to_has_ans is genuinely
    no-answer, the scored ids are exactly the question ids (no duplicates),
    and every scored question has the empty string as its prediction,
    find_best_thresh returns exactly 100.0 and the initial threshold 0.0. -/
theorem claim_C7 (preds : List (String × String))
    (scores na_probs : List (String × Rat)) (q2h : List (String × Bool))
    (hall : ∀ kv ∈ q2h, kv.2 = false)
    (h1 : ∀ q ∈ scores.map Prod.fst, (pyLookup q2h q).isSome = true)
    (h2 : ∀ q ∈ q2h.map Prod.fst, (pyLookup scores q).isSome = true)
    (hnds : (scores.map Prod.fst).Nodup) (hndh : (q2h.map Prod.fst).Nodup)
    (hpreds : ∀ q ∈ scores.map Prod.fst, pyLookup preds q = some "")
    (hne : scores ≠ []) :
    find_best_thresh preds scores na_probs q2h = Except.ok (100, 0) := by
  have hstep : ∀ qid, (pyLookup scores qid).isSome = true →
      pyGet q2h qid = Except.ok false ∧ pyGet preds qid = Except.ok "" := by
    intro qid hqs
    have hqmem : qid ∈ scores.map Prod.fst :=
      (pyLookup_isSome_iff_mem scores qid).mp hqs
    rcases Option.isSome_iff_exists.mp (h1 qid hqmem) with ⟨b, hb⟩
    have hbf : b = false := hall (qid, b) (pyLookup_mem q2h qid b hb)
    refine ⟨by simp [pyGet, hb, hbf], by simp [pyGet, hpreds qid hqmem]⟩
  have hlen : q2h.length = scores.length := by
    have hperm : (scores.map Prod.fst).Perm (q2h.map Prod.fst) := by
      rw [List.perm_ext_iff_of_nodup hnds hndh]
      intro q
      constructor
      · intro hq
        exact (pyLookup_isSome_iff_mem q2h q).mp (h1 q hq)
      · intro hq
        exact (pyLookup_isSome_iff_mem scores q).mp (h2 q hq)
    have := hperm.length_eq
    simpa using this.symm
  have hnn : (q2h.filter (fun kv => !kv.2)).length = scores.length := by
    rw [filter_all _ q2h (fun kv hkv => by simp [hall kv hkv]), hlen]
  have hlz : scores.length ≠ 0 := fun h => hne (List.length_eq_zero.mp h)
  rw [find_best_thresh]
  simp only [hnn]
  rw [fbtLoop_all_noans preds scores na_probs q2h hstep, exceptBind_ok,
    if_neg hlz]
  have : (100 : Rat) * (scores.length : Rat) / (scores.length : Rat) = 100 := by
    rw [mul_div_assoc, div_self (Nat.cast_ne_zero.mpr hlz), mul_one]
  rw [this]
  rfl

/-- C7 witness: two no-answer questions with empty predictions and distinct
    probabilities. -/
theorem claim_C7_witness :
    find_best_thresh [("q1", ""), ("q2", "")] [("q1", 0), ("q2", 1)]
      [("q1", 3/10), ("q2", 7/10)] [("q1", false), ("q2", false)] =
      Except.ok (100, 0) :=
  claim_C7 [("q1", ""), ("q2", "")] [("q1", 0), ("q2", 1)]
    [("q1", 3/10), ("q2", 7/10)] [("q1", false), ("q2", false)]
    (by decide) (by decide) (by decide) (by decide) (by decide) (by decide)
    (by decide)

/-! Claim C2: which keys evaluate actually returns when a probability file is
    supplied. -/

theorem map_fst_replaceKey {α : Type} (k : String) (v : α) :
    ∀ m : List (String × α),
      (m.map (fun kv => if kv.1 = k then (k, v) else kv)).map Prod.fst =
        m.map Prod.fst := by
  intro m
  induction m with
  | nil => rfl
  | cons kv rest ih =>
    simp only [List.map_cons, ih, List.cons.injEq, and_true]
    by_cases hk : kv.1 = k
    · rw [if_pos hk]
      exact hk.symm
    · rw [if_neg hk]

theorem mem_keys_dictInsert {α : Type} (m : List (String × α)) (k q : String)
    (v : α) :
    q ∈ (dictInsert m k v).map Prod.fst ↔ q = k ∨ q ∈ m.map Prod.fst := by
  rw [dictInsert]
  by_cases hp : (pyLookup m k).isSome = true
  · rw [if_pos hp]
    rw [map_fst_replaceKey]
    have hk : k ∈ m.map Prod.fst := (pyLookup_isSome_iff_mem m k).mp hp
    constructor
    · exact Or.inr
    · rintro (h | h)
      · exact h ▸ hk
      · exact h
  · rw [if_neg hp]
    rw [List.map_append, List.mem_append]
    simp [or_comm]

theorem mem_keys_mergeEval (new : List (String × Rat)) :
    ∀ (main : List (String × Rat)) (pre q : String),
      q ∈ (merge_eval main new pre).map Prod.fst ↔
        q ∈ main.map Prod.fst ∨ ∃ k ∈ new.map Prod.fst, q = pre ++ "_" ++ k := by
  induction new with
  | nil =>
    intro main pre q
    simp [merge_eval]
  | cons kv rest ih =>
    intro main pre q
    have hstep : merge_eval main (kv :: rest) pre =
        merge_eval (dictInsert main (pre ++ "_" ++ kv.1) kv.2) rest pre := rfl
    rw [hstep, ih, mem_keys_dictInsert]
    simp only [List.map_cons, List.mem_cons]
    constructor
    · rintro ((h | h) | ⟨k, hk, hq⟩)
      · exact Or.inr ⟨kv.1, Or.inl rfl, h⟩
      · exact Or.inl h
      · exact Or.inr ⟨k, Or.inr hk, hq⟩
    · rintro (h | ⟨k, (hk | hk), hq⟩)
      · exact Or.inl (Or.inr h)
      · exact Or.inl (Or.inl (hk ▸ hq))
      · exact Or.inr ⟨k, hk, hq⟩

theorem makeEvalAll_keys (e f d : List (String × Rat))
    (h : makeEvalAll e f = Except.ok d) :
    d.map Prod.fst = ["exact", "f1", "total"] := by
  rw [makeEvalAll] at h
  by_cases hz : e.length = 0
  · rw [if_pos hz] at h
    exact absurd h (by simp)
  · rw [if_neg hz] at h
    have h2 := Except.ok.inj h
    rw [← h2]
    rfl

theorem make_eval_dict_keys (e f d : List (String × Rat))
    (q : Option (List String)) (h : make_eval_dict e f q = Except.ok d) :
    d.map Prod.fst = ["exact", "f1", "total"] := by
  rw [make_eval_dict.eq_def] at h
  cases q with
  | none => exact makeEvalAll_keys e f d h
  | some l =>
    dsimp only at h
    by_cases hl : l = []
    · rw [if_pos hl] at h
      exact makeEvalAll_keys e f d h
    · rw [if_neg hl] at h
      cases hse : sumScores e l with
      | error msg => rw [hse, exceptBind_error] at h; exact absurd h (by simp)
      | ok se =>
        rw [hse, exceptBind_ok] at h
        cases hsf : sumScores f l with
        | error msg => rw [hsf, exceptBind_error] at h; exact absurd h (by simp)
        | ok sf =>
          rw [hsf, exceptBind_ok] at h
          have h2 := Except.ok.inj h
          rw [← h2]
          rfl

theorem make_precision_recall_eval_keys (s na : List (String × Rat)) (ntp : Nat)
    (q2h : List (String × Bool)) (d : List (String × Rat))
    (h : make_precision_recall_eval s na ntp q2h = Except.ok d) :
    d.map Prod.fst = ["ap"] := by
  rw [make_precision_recall_eval] at h
  cases hl : prLoop s na q2h ntp ((sortByVal na).map Prod.fst) 0 0 0 0 with
  | error msg => rw [hl, exceptBind_error] at h; exact absurd h (by simp)
  | ok avg =>
    rw [hl, exceptBind_ok] at h
    have h2 := Except.ok.inj h
    rw [← h2]
    rfl

/-- When at least one question has an answer and the analysis succeeds, the
    output is main_eval with the three single-key ap dictionaries merged
    under the pr_exact, pr_f1, pr_oracle prefixes. -/
theorem runPR_ok_pos (main e f na : List (String × Rat))
    (q2h : List (String × Bool)) (out : List (String × Rat))
    (hntp : (q2h.filter (fun kv => kv.2)).length ≠ 0)
    (h : run_precision_recall_analysis main e f na q2h = Except.ok out) :
    ∃ a b c : List (String × Rat),
      out = merge_eval (merge_eval (merge_eval main a "pr_exact") b "pr_f1")
        c "pr_oracle" ∧
      a.map Prod.fst = ["ap"] ∧ b.map Prod.fst = ["ap"] ∧
      c.map Prod.fst = ["ap"] := by
  rw [run_precision_recall_analysis] at h
  rw [if_neg hntp] at h
  cases ha : make_precision_recall_eval e na
      ((q2h.filter (fun kv => kv.2)).length) q2h with
  | error msg => rw [ha, exceptBind_error] at h; exact absurd h (by simp)
  | ok a =>
    rw [ha, exceptBind_ok] at h
    cases hb : make_precision_recall_eval f na
        ((q2h.filter (fun kv => kv.2)).length) q2h with
    | error msg => rw [hb, exceptBind_error] at h; exact absurd h (by simp)
    | ok b =>
      rw [hb, exceptBind_ok] at h
      dsimp only at h
      cases hc : make_precision_recall_eval
          (q2h.map (fun kv => (kv.1, if kv.2 then (1 : Rat) else 0))) na
          ((q2h.filter (fun kv => kv.2)).length) q2h with
      | error msg => rw [hc, exceptBind_error] at h; exact absurd h (by simp)
      | ok c =>
        rw [hc, exceptBind_ok] at h
        refine ⟨a, b, c, (Except.ok.inj h).symm,
          make_precision_recall_eval_keys _ _ _ _ _ ha,
          make_precision_recall_eval_keys _ _ _ _ _ hb,
          make_precision_recall_eval_keys _ _ _ _ _ hc⟩

/-- Membership in a merged mapping is preserved from the base mapping. -/
theorem mergeEval_keep (main d : List (String × Rat)) (pre q : String)
    (h : q ∈ main.map Prod.fst) :
    q ∈ (merge_eval main d pre).map Prod.fst :=
  (mem_keys_mergeEval d main pre q).mpr (Or.inl h)

/-- A key absent from the base mapping and different from every prefixed key
    of the merged-in mapping stays absent. -/
theorem mergeEval_absent (main d : List (String × Rat)) (pre q : String)
    (h : q ∉ main.map Prod.fst)
    (hne : ∀ k ∈ d.map Prod.fst, q ≠ pre ++ "_" ++ k) :
    q ∉ (merge_eval main d pre).map Prod.fst := by
  intro hmem
  rcases (mem_keys_mergeEval d main pre q).mp hmem with hm | ⟨k, hk, hq⟩
  · exact h hm
  · exact hne k hk hq

/-- Keys of a merged mapping stay inside a superset that contains the base
    keys and every prefixed key of the merged-in mapping. -/
theorem mergeEval_sub (main d : List (String × Rat)) (pre : String)
    (S : List String)
    (hmain : ∀ q, q ∈ main.map Prod.fst → q ∈ S)
    (hnew : ∀ k ∈ d.map Prod.fst, (pre ++ "_" ++ k) ∈ S) :
    ∀ q, q ∈ (merge_eval main d pre).map Prod.fst → q ∈ S := by
  intro q hq
  rcases (mem_keys_mergeEval d main pre q).mp hq with hm | ⟨k, hk, hq2⟩
  · exact hmain q hm
  · exact hq2 ▸ hnew k hk

/-- Tail of the C2 argument: once the main summary out2 is built (its keys
    lie among the nine aggregate keys and contain exact, f1, total), the
    precision-recall stage adds exactly the three pr keys when some question
    has answers and nothing otherwise, and no best key ever appears. -/
theorem claim_C2_tail (e f na : List (String × Rat))
    (q2h : List (String × Bool)) (out2 out : List (String × Rat))
    (hkeep : ∀ q ∈ (["exact", "f1", "total"] : List String),
      q ∈ out2.map Prod.fst)
    (hsub : ∀ q, q ∈ out2.map Prod.fst →
      q ∈ (["exact", "f1", "total", "HasAns_exact", "HasAns_f1",
        "HasAns_total", "NoAns_exact", "NoAns_f1", "NoAns_total"] :
          List String))
    (h : run_precision_recall_analysis out2 e f na q2h = Except.ok out) :
    ("exact" ∈ out.map Prod.fst ∧ "f1" ∈ out.map Prod.fst ∧
      "total" ∈ out.map Prod.fst) ∧
    ("best_exact" ∉ out.map Prod.fst ∧ "best_exact_thresh" ∉ out.map Prod.fst ∧
      "best_f1" ∉ out.map Prod.fst ∧ "best_f1_thresh" ∉ out.map Prod.fst) ∧
    ((q2h.filter (fun kv => kv.2)).length ≠ 0 →
      "pr_exact_ap" ∈ out.map Prod.fst ∧ "pr_f1_ap" ∈ out.map Prod.fst ∧
      "pr_oracle_ap" ∈ out.map Prod.fst) ∧
    ((q2h.filter (fun kv => kv.2)).length = 0 →
      "pr_exact_ap" ∉ out.map Prod.fst ∧ "pr_f1_ap" ∉ out.map Prod.fst ∧
      "pr_oracle_ap" ∉ out.map Prod.fst) := by
  by_cases hntp : (q2h.filter (fun kv => kv.2)).length = 0
  · rw [runPR_skip out2 e f na q2h hntp] at h
    have ho : out2 = out := Except.ok.inj h
    subst ho
    refine ⟨⟨hkeep "exact" (by decide), hkeep "f1" (by decide),
      hkeep "total" (by decide)⟩,
      ⟨fun hm => absurd (hsub _ hm) (by decide),
       fun hm => absurd (hsub _ hm) (by decide),
       fun hm => absurd (hsub _ hm) (by decide),
       fun hm => absurd (hsub _ hm) (by decide)⟩,
      fun hne => absurd hntp hne,
      fun _ => ⟨fun hm => absurd (hsub _ hm) (by decide),
        fun hm => absurd (hsub _ hm) (by decide),
        fun hm => absurd (hsub _ hm) (by decide)⟩⟩
  · obtain ⟨a, b, c, hout, ha, hb, hc⟩ :=
      runPR_ok_pos out2 e f na q2h out hntp h
    subst hout
    have hsubOut : ∀ q, q ∈ (merge_eval (merge_eval (merge_eval out2 a
        "pr_exact") b "pr_f1") c "pr_oracle").map Prod.fst →
        q ∈ (["exact", "f1", "total", "HasAns_exact", "HasAns_f1",
          "HasAns_total", "NoAns_exact", "NoAns_f1", "NoAns_total",
          "pr_exact_ap", "pr_f1_ap", "pr_oracle_ap"] : List String) := by
      refine mergeEval_sub _ c "pr_oracle" _ ?_ (by rw [hc]; decide)
      refine mergeEval_sub _ b "pr_f1" _ ?_ (by rw [hb]; decide)
      refine mergeEval_sub _ a "pr_exact" _ ?_ (by rw [ha]; decide)
      intro q hq
      exact (by decide : ∀ x ∈ (["exact", "f1", "total", "HasAns_exact",
        "HasAns_f1", "HasAns_total", "NoAns_exact", "NoAns_f1",
        "NoAns_total"] : List String),
        x ∈ (["exact", "f1", "total", "HasAns_exact", "HasAns_f1",
          "HasAns_total", "NoAns_exact", "NoAns_f1", "NoAns_total",
          "pr_exact_ap", "pr_f1_ap", "pr_oracle_ap"] : List String))
        q (hsub q hq)
    have hkeepPR : ∀ q, q ∈ out2.map Prod.fst →
        q ∈ (merge_eval (merge_eval (merge_eval out2 a "pr_exact") b
          "pr_f1") c "pr_oracle").map Prod.fst := fun q hq =>
      mergeEval_keep _ c "pr_oracle" q (mergeEval_keep _ b "pr_f1" q
        (mergeEval_keep _ a "pr_exact" q hq))
    refine ⟨⟨hkeepPR _ (hkeep "exact" (by decide)),
      hkeepPR _ (hkeep "f1" (by decide)),
      hkeepPR _ (hkeep "total" (by decide))⟩,
      ⟨fun hm => absurd (hsubOut _ hm) (by decide),
       fun hm => absurd (hsubOut _ hm) (by decide),
       fun hm => absurd (hsubOut _ hm) (by decide),
       fun hm => absurd (hsubOut _ hm) (by decide)⟩,
      fun _ => ⟨?_, ?_, ?_⟩,
      fun hz => absurd hz hntp⟩
    · exact mergeEval_keep _ c "pr_oracle" _ (mergeEval_keep _ b "pr_f1" _
        ((mem_keys_mergeEval a out2 "pr_exact" "pr_exact_ap").mpr
          (Or.inr ⟨"ap", by rw [ha]; decide, by decide⟩)))
    · exact mergeEval_keep _ c "pr_oracle" _
        ((mem_keys_mergeEval b _ "pr_f1" "pr_f1_ap").mpr
          (Or.inr ⟨"ap", by rw [hb]; decide, by decide⟩))
    · exact (mem_keys_mergeEval c _ "pr_oracle" "pr_oracle_ap").mpr
        (Or.inr ⟨"ap", by rw [hc]; decide, by decide⟩)

/-- C2 amended: in every run of evaluate that returns a summary and was
    supplied a no-answer probabilities file, the summary contains exact, f1
    and total; it never contains best_exact, best_exact_thresh, best_f1 or
    best_f1_thresh (find_all_best_thresh is defined but never called by
    evaluate); and it contains pr_exact_ap, pr_f1_ap, pr_oracle_ap exactly
    when at least one question has an answer — independently of any image
    output option. -/
theorem claim_C2_amended (ds : List Paragraph) (preds : List (String × String))
    (probs : List (String × Rat)) (out : List (String × Rat))
    (h : evaluate ds preds (some probs) = Except.ok out) :
    ("exact" ∈ out.map Prod.fst ∧ "f1" ∈ out.map Prod.fst ∧
      "total" ∈ out.map Prod.fst) ∧
    ("best_exact" ∉ out.map Prod.fst ∧ "best_exact_thresh" ∉ out.map Prod.fst ∧
      "best_f1" ∉ out.map Prod.fst ∧ "best_f1_thresh" ∉ out.map Prod.fst) ∧
    (((make_qid_to_has_ans ds).filter (fun kv => kv.2)).length ≠ 0 →
      "pr_exact_ap" ∈ out.map Prod.fst ∧ "pr_f1_ap" ∈ out.map Prod.fst ∧
      "pr_oracle_ap" ∈ out.map Prod.fst) ∧
    (((make_qid_to_has_ans ds).filter (fun kv => kv.2)).length = 0 →
      "pr_exact_ap" ∉ out.map Prod.fst ∧ "pr_f1_ap" ∉ out.map Prod.fst ∧
      "pr_oracle_ap" ∉ out.map Prod.fst) := by
  rw [evaluate] at h
  dsimp only at h
  cases h1 : apply_no_ans_threshold (get_raw_scores ds preds).1
      (preds.map (fun kv => (kv.1, (0 : Rat)))) (make_qid_to_has_ans ds) 1 with
  | error msg => rw [h1, exceptBind_error] at h; exact absurd h (by simp)
  | ok et =>
    rw [h1, exceptBind_ok] at h
    cases h2 : apply_no_ans_threshold (get_raw_scores ds preds).2
        (preds.map (fun kv => (kv.1, (0 : Rat)))) (make_qid_to_has_ans ds) 1 with
    | error msg => rw [h2, exceptBind_error] at h; exact absurd h (by simp)
    | ok ft =>
      rw [h2, exceptBind_ok] at h
      cases h3 : make_eval_dict et ft none with
      | error msg => rw [h3, exceptBind_error] at h; exact absurd h (by simp)
      | ok out0 =>
        rw [h3, exceptBind_ok] at h
        have hk0 : out0.map Prod.fst = ["exact", "f1", "total"] :=
          make_eval_dict_keys et ft out0 none h3
        have hkeep0 : ∀ q ∈ (["exact", "f1", "total"] : List String),
            q ∈ out0.map Prod.fst := by
          intro q hq; rw [hk0]; exact hq
        have hsub0 : ∀ q, q ∈ out0.map Prod.fst →
            q ∈ (["exact", "f1", "total", "HasAns_exact", "HasAns_f1",
              "HasAns_total", "NoAns_exact", "NoAns_f1", "NoAns_total"] :
                List String) := by
          intro q hq
          rw [hk0] at hq
          exact (by decide : ∀ x ∈ (["exact", "f1", "total"] : List String),
            x ∈ (["exact", "f1", "total", "HasAns_exact", "HasAns_f1",
              "HasAns_total", "NoAns_exact", "NoAns_f1", "NoAns_total"] :
                List String)) q hq
        by_cases hha : List.map Prod.fst (List.filter (fun kv => kv.2)
            (make_qid_to_has_ans ds)) = []
        · rw [if_pos hha, pure_bind] at h
          by_cases hna : List.map Prod.fst (List.filter (fun kv => !kv.2)
              (make_qid_to_has_ans ds)) = []
          · rw [if_pos hna, pure_bind] at h
            exact claim_C2_tail _ _ _ _ out0 out hkeep0 hsub0 h
          · rw [if_neg hna] at h
            cases h5 : make_eval_dict et ft (some (List.map Prod.fst
                (List.filter (fun kv => !kv.2) (make_qid_to_has_ans ds)))) with
            | error msg =>
              rw [h5, exceptBind_error] at h; exact absurd h (by simp)
            | ok d2 =>
              rw [h5, exceptBind_ok, pure_bind] at h
              have hd2 : d2.map Prod.fst = ["exact", "f1", "total"] :=
                make_eval_dict_keys et ft d2 _ h5
              refine claim_C2_tail _ _ _ _ (merge_eval out0 d2 "NoAns") out
                (fun q hq => mergeEval_keep out0 d2 "NoAns" q (hkeep0 q hq))
                (mergeEval_sub out0 d2 "NoAns" _ hsub0
                  (by rw [hd2]; decide)) h
        · rw [if_neg hha] at h
          cases h4 : make_eval_dict et ft (some (List.map Prod.fst
              (List.filter (fun kv => kv.2) (make_qid_to_has_ans ds)))) with
          | error msg =>
            rw [h4, exceptBind_error] at h; exact absurd h (by simp)
          | ok d1 =>
            rw [h4, exceptBind_ok, pure_bind] at h
            have hd1 : d1.map Prod.fst = ["exact", "f1", "total"] :=
              make_eval_dict_keys et ft d1 _ h4
            have hkeep1 : ∀ q ∈ (["exact", "f1", "total"] : List String),
                q ∈ (merge_eval out0 d1 "HasAns").map Prod.fst :=
              fun q hq => mergeEval_keep out0 d1 "HasAns" q (hkeep0 q hq)
            have hsub1 : ∀ q, q ∈ (merge_eval out0 d1 "HasAns").map
                Prod.fst →
                q ∈ (["exact", "f1", "total", "HasAns_exact", "HasAns_f1",
                  "HasAns_total", "NoAns_exact", "NoAns_f1", "NoAns_total"] :
                    List String) :=
              mergeEval_sub out0 d1 "HasAns" _ hsub0 (by rw [hd1]; decide)
            by_cases hna : List.map Prod.fst (List.filter (fun kv => !kv.2)
                (make_qid_to_has_ans ds)) = []
            · rw [if_pos hna, pure_bind] at h
              exact claim_C2_tail _ _ _ _ (merge_eval out0 d1 "HasAns") out
                hkeep1 hsub1 h
            · rw [if_neg hna] at h
              cases h5 : make_eval_dict et ft (some (List.map Prod.fst
                  (List.filter (fun kv => !kv.2)
                    (make_qid_to_has_ans ds)))) with
              | error msg =>
                rw [h5, exceptBind_error] at h; exact absurd h (by simp)
              | ok d2 =>
                rw [h5, exceptBind_ok, pure_bind] at h
                have hd2 : d2.map Prod.fst = ["exact", "f1", "total"] :=
                  make_eval_dict_keys et ft d2 _ h5
                refine claim_C2_tail _ _ _ _
                  (merge_eval (merge_eval out0 d1 "HasAns") d2 "NoAns") out
                  (fun q hq => mergeEval_keep _ d2 "NoAns" q (hkeep1 q hq))
                  (mergeEval_sub _ d2 "NoAns" _ hsub1
                    (by rw [hd2]; decide)) h

/-- C2 counterexample: a concrete run of evaluate with a no-answer
    probabilities file supplied whose returned summary has no best_exact key
    (nor any other best key): evaluate never calls find_all_best_thresh. -/
theorem claim_C2_counterexample :
    evaluate [⟨[⟨"p1", ["u"]⟩, ⟨"p2", []⟩]⟩] [("p1", "u"), ("p2", "")]
        (some [("p1", 1/4), ("p2", 3/4)]) =
      Except.ok
        [("exact", 100), ("f1", 100), ("total", 2),
         ("HasAns_exact", 100), ("HasAns_f1", 100), ("HasAns_total", 1),
         ("NoAns_exact", 100), ("NoAns_f1", 100), ("NoAns_total", 1),
         ("pr_exact_ap", 50), ("pr_f1_ap", 50), ("pr_oracle_ap", 50)] ∧
    "best_exact" ∉
      ([("exact", (100 : Rat)), ("f1", 100), ("total", 2),
        ("HasAns_exact", 100), ("HasAns_f1", 100), ("HasAns_total", 1),
        ("NoAns_exact", 100), ("NoAns_f1", 100), ("NoAns_total", 1),
        ("pr_exact_ap", 50), ("pr_f1_ap", 50), ("pr_oracle_ap", 50)]).map
        Prod.fst :=
  ⟨by with_unfolding_all rfl, by decide⟩

/-- C2 amended, witness: the amended statement applied to the concrete run of
    the counterexample. -/
theorem claim_C2_amended_witness :
    ("exact" ∈ ([("exact", (100 : Rat)), ("f1", 100), ("total", 2),
        ("HasAns_exact", 100), ("HasAns_f1", 100), ("HasAns_total", 1),
        ("NoAns_exact", 100), ("NoAns_f1", 100), ("NoAns_total", 1),
        ("pr_exact_ap", 50), ("pr_f1_ap", 50),
        ("pr_oracle_ap", 50)]).map Prod.fst ∧
      "f1" ∈ ([("exact", (100 : Rat)), ("f1", 100), ("total", 2),
        ("HasAns_exact", 100), ("HasAns_f1", 100), ("HasAns_total", 1),
        ("NoAns_exact", 100), ("NoAns_f1", 100), ("NoAns_total", 1),
        ("pr_exact_ap", 50), ("pr_f1_ap", 50),
        ("pr_oracle_ap", 50)]).map Prod.fst ∧
      "total" ∈ ([("exact", (100 : Rat)), ("f1", 100), ("total", 2),
        ("HasAns_exact", 100), ("HasAns_f1", 100), ("HasAns_total", 1),
        ("NoAns_exact", 100), ("NoAns_f1", 100), ("NoAns_total", 1),
        ("pr_exact_ap", 50), ("pr_f1_ap", 50),
        ("pr_oracle_ap", 50)]).map Prod.fst) ∧
    ("best_exact" ∉ ([("exact", (100 : Rat)), ("f1", 100), ("total", 2),
        ("HasAns_exact", 100), ("HasAns_f1", 100), ("HasAns_total", 1),
        ("NoAns_exact", 100), ("NoAns_f1", 100), ("NoAns_total", 1),
        ("pr_exact_ap", 50), ("pr_f1_ap", 50),
        ("pr_oracle_ap", 50)]).map Prod.fst ∧
      "best_exact_thresh" ∉ ([("exact", (100 : Rat)), ("f1", 100),
        ("total", 2), ("HasAns_exact", 100), ("HasAns_f1", 100),
        ("HasAns_total", 1), ("NoAns_exact", 100), ("NoAns_f1", 100),
        ("NoAns_total", 1), ("pr_exact_ap", 50), ("pr_f1_ap", 50),
        ("pr_oracle_ap", 50)]).map Prod.fst ∧
      "best_f1" ∉ ([("exact", (100 : Rat)), ("f1", 100), ("total", 2),
        ("HasAns_exact", 100), ("HasAns_f1", 100), ("HasAns_total", 1),
        ("NoAns_exact", 100), ("NoAns_f1", 100), ("NoAns_total", 1),
        ("pr_exact_ap", 50), ("pr_f1_ap", 50),
        ("pr_oracle_ap", 50)]).map Prod.fst ∧
      "best_f1_thresh" ∉ ([("exact", (100 : Rat)), ("f1", 100), ("total", 2),
        ("HasAns_exact", 100), ("HasAns_f1", 100), ("HasAns_total", 1),
        ("NoAns_exact", 100), ("NoAns_f1", 100), ("NoAns_total", 1),
        ("pr_exact_ap", 50), ("pr_f1_ap", 50),
        ("pr_oracle_ap", 50)]).map Prod.fst) ∧
    (((make_qid_to_has_ans [⟨[⟨"p1", ["u"]⟩, ⟨"p2", []⟩]⟩]).filter
        (fun kv => kv.2)).length ≠ 0 →
      "pr_exact_ap" ∈ ([("exact", (100 : Rat)), ("f1", 100), ("total", 2),
        ("HasAns_exact", 100), ("HasAns_f1", 100), ("HasAns_total", 1),
        ("NoAns_exact", 100), ("NoAns_f1", 100), ("NoAns_total", 1),
        ("pr_exact_ap", 50), ("pr_f1_ap", 50),
        ("pr_oracle_ap", 50)]).map Prod.fst ∧
      "pr_f1_ap" ∈ ([("exact", (100 : Rat)), ("f1", 100), ("total", 2),
        ("HasAns_exact", 100), ("HasAns_f1", 100), ("HasAns_total", 1),
        ("NoAns_exact", 100), ("NoAns_f1", 100), ("NoAns_total", 1),
        ("pr_exact_ap", 50), ("pr_f1_ap", 50),
        ("pr_oracle_ap", 50)]).map Prod.fst ∧
      "pr_oracle_ap" ∈ ([("exact", (100 : Rat)), ("f1", 100), ("total", 2),
        ("HasAns_exact", 100), ("HasAns_f1", 100), ("HasAns_total", 1),
        ("NoAns_exact", 100), ("NoAns_f1", 100), ("NoAns_total", 1),
        ("pr_exact_ap", 50), ("pr_f1_ap", 50),
        ("pr_oracle_ap", 50)]).map Prod.fst) ∧
    (((make_qid_to_has_ans [⟨[⟨"p1", ["u"]⟩, ⟨"p2", []⟩]⟩]).filter
        (fun kv => kv.2)).length = 0 →
      "pr_exact_ap" ∉ ([("exact", (100 : Rat)), ("f1", 100), ("total", 2),
        ("HasAns_exact", 100), ("HasAns_f1", 100), ("HasAns_total", 1),
        ("NoAns_exact", 100), ("NoAns_f1", 100), ("NoAns_total", 1),
        ("pr_exact_ap", 50), ("pr_f1_ap", 50),
        ("pr_oracle_ap", 50)]).map Prod.fst ∧
      "pr_f1_ap" ∉ ([("exact", (100 : Rat)), ("f1", 100), ("total", 2),
        ("HasAns_exact", 100), ("HasAns_f1", 100), ("HasAns_total", 1),
        ("NoAns_exact", 100), ("NoAns_f1", 100), ("NoAns_total", 1),
        ("pr_exact_ap", 50), ("pr_f1_ap", 50),
        ("pr_oracle_ap", 50)]).map Prod.fst ∧
      "pr_oracle_ap" ∉ ([("exact", (100 : Rat)), ("f1", 100), ("total", 2),
        ("HasAns_exact", 100), ("HasAns_f1", 100), ("HasAns_total", 1),
        ("NoAns_exact", 100), ("NoAns_f1", 100), ("NoAns_total", 1),
        ("pr_exact_ap", 50), ("pr_f1_ap", 50),
        ("pr_oracle_ap", 50)]).map Prod.fst) :=
  claim_C2_amended [⟨[⟨"p1", ["u"]⟩, ⟨"p2", []⟩]⟩] [("p1", "u"), ("p2", "")]
    [("p1", 1/4), ("p2", 3/4)]
    [("exact", 100), ("f1", 100), ("total", 2),
     ("HasAns_exact", 100), ("HasAns_f1", 100), ("HasAns_total", 1),
     ("NoAns_exact", 100), ("NoAns_f1", 100), ("NoAns_total", 1),
     ("pr_exact_ap", 50), ("pr_f1_ap", 50), ("pr_oracle_ap", 50)]
    (by with_unfolding_all rfl)

/-- With no predictions, every question is reported missing and skipped, so
    both raw score mappings are empty. -/
theorem get_raw_scores_nil_preds (dataset : List Paragraph) :
    get_raw_scores dataset [] = ([], []) := by
  rw [get_raw_scores]
  refine foldl_const _ ?_ dataset ([], [])
  intro acc p
  refine foldl_const _ ?_ p.qas acc
  intro acc qa
  rfl

/-! Claim C1: the loaded no-answer probability file is inert. -/

/-- C1 counterexample: a concrete run in which a probability file is
    supplied.  The run reports pr_exact_ap = 200/3, which is the average
    precision of the all-zero mapping (all probabilities tie, so only the
    final point of the sweep is emitted); running make_precision_recall_eval
    on the same raw scores with the probabilities that were actually loaded
    gives ap = 100 instead.  So the optional analysis receives the zeroed
    mapping, not a separately-loaded variable as the claim states. -/
theorem claim_C1_counterexample :
    evaluate [⟨[⟨"q1", ["x"]⟩, ⟨"q2", ["y"]⟩, ⟨"q3", []⟩]⟩]
        [("q1", "x"), ("q2", "y"), ("q3", "z")]
        (some [("q1", 1/10), ("q2", 2/10), ("q3", 3/10)]) =
      Except.ok
        [("exact", 200/3), ("f1", 200/3), ("total", 3),
         ("HasAns_exact", 100), ("HasAns_f1", 100), ("HasAns_total", 2),
         ("NoAns_exact", 0), ("NoAns_f1", 0), ("NoAns_total", 1),
         ("pr_exact_ap", 200/3), ("pr_f1_ap", 200/3), ("pr_oracle_ap", 200/3)] ∧
    get_raw_scores [⟨[⟨"q1", ["x"]⟩, ⟨"q2", ["y"]⟩, ⟨"q3", []⟩]⟩]
        [("q1", "x"), ("q2", "y"), ("q3", "z")] =
      ([("q1", 1), ("q2", 1), ("q3", 0)], [("q1", 1), ("q2", 1), ("q3", 0)]) ∧
    make_precision_recall_eval [("q1", 1), ("q2", 1), ("q3", 0)]
        [("q1", 1/10), ("q2", 2/10), ("q3", 3/10)] 2
        [("q1", true), ("q2", true), ("q3", false)] = Except.ok [("ap", 100)] ∧
    (200/3 : Rat) ≠ 100 :=
  ⟨by with_unfolding_all rfl, by with_unfolding_all rfl,
   by with_unfolding_all rfl, by norm_num⟩

/-- C1 amended: the mapping loaded from na_probs_file is inert everywhere,
    not only in the main aggregation: line 256 rebinds na_probs to the
    all-zero mapping over the prediction ids, and the precision-recall
    analysis receives that same rebound variable, so the result of evaluate
    does not depend on the loaded contents at all (only on whether a file was
    supplied). -/
theorem claim_C1_amended (dataset : List Paragraph)
    (preds : List (String × String)) (p1 p2 : List (String × Rat)) :
    evaluate dataset preds (some p1) = evaluate dataset preds (some p2) := rfl

/-! Claim C9: a scored id missing from na_probs does not default to 0.0. -/

/-- C9 counterexample: a scored question whose id has no entry in na_probs
    makes apply_no_ans_threshold raise KeyError instead of keeping the raw
    score (the claim expects Except.ok with the score kept). -/
theorem claim_C9_counterexample :
    apply_no_ans_threshold [("q1", (1 : Rat))] [] [("q1", true)] 0 =
      Except.error "KeyError" ∧
    (Except.error "KeyError" : Except String (List (String × Rat))) ≠
      Except.ok [("q1", (1 : Rat))] :=
  ⟨rfl, fun h => Except.noConfusion h⟩

/-- The sweep of find_best_thresh never consults the score of an id that is
    absent from na_probs: its qid list is drawn from na_probs only, so an
    extra scored entry with such an id only enlarges the denominator and its
    score value is irrelevant. -/
theorem fbtLoop_append_notin (preds : List (String × String))
    (scores na_probs : List (String × Rat)) (q2h : List (String × Bool))
    (q : String) (v : Rat) :
    ∀ (l : List String), (∀ qid ∈ l, qid ≠ q) →
      ∀ (cur best bthresh : Rat),
        fbtLoop preds (scores ++ [(q, v)]) na_probs q2h l cur best bthresh =
          fbtLoop preds scores na_probs q2h l cur best bthresh := by
  intro l
  induction l with
  | nil => intro _ cur best bthresh; rfl
  | cons qid rest ih =>
    intro hne cur best bthresh
    have hq : qid ≠ q := hne qid (List.mem_cons_self qid rest)
    have hrest : ∀ qid ∈ rest, qid ≠ q :=
      fun x hx => hne x (List.mem_cons_of_mem qid hx)
    rw [fbtLoop, fbtLoop, pyLookup_append_ne scores q qid v hq]
    cases hsc : pyLookup scores qid with
    | none => exact ih hrest cur best bthresh
    | some sc =>
      dsimp only
      cases hh : pyGet q2h qid with
      | error e => rfl
      | ok h =>
        simp only [exceptBind_ok]
        cases h with
        | true =>
          simp only [if_true, pure_bind]
          by_cases hgt : cur + sc > best
          · simp only [if_pos hgt]
            cases hna : pyGet na_probs qid with
            | error e => rfl
            | ok p => simp only [exceptBind_ok]; exact ih hrest _ _ p
          · simp only [if_neg hgt]
            exact ih hrest _ best bthresh
        | false =>
          simp only [Bool.false_eq_true, if_false]
          cases hpr : pyGet preds qid with
          | error e => rfl
          | ok pr =>
            simp only [exceptBind_ok, pure_bind]
            by_cases hgt : cur + (if pr = "" then (0 : Rat) else -1) > best
            · simp only [if_pos hgt]
              cases hna : pyGet na_probs qid with
              | error e => rfl
              | ok p => simp only [exceptBind_ok]; exact ih hrest _ _ p
            · simp only [if_neg hgt]
              exact ih hrest _ best bthresh

/-- C9 amended: there is no defaulting to 0.0.  A scored id that is absent
    from na_probs makes apply_no_ans_threshold fail with an exception, and
    find_best_thresh silently skips it in the sweep (its qid list is drawn
    from na_probs), so its raw score is never consulted and it only counts in
    the denominator. -/
theorem claim_C9_amended :
    (∀ (scores na_probs : List (String × Rat)) (q2h : List (String × Bool))
      (t : Rat), (∃ kv ∈ scores, pyLookup na_probs kv.1 = none) →
      ∃ msg, apply_no_ans_threshold scores na_probs q2h t =
        Except.error msg) ∧
    (∀ (preds : List (String × String)) (scores na_probs : List (String × Rat))
      (q2h : List (String × Bool)) (q : String) (v1 v2 : Rat),
      q ∉ na_probs.map Prod.fst →
      find_best_thresh preds (scores ++ [(q, v1)]) na_probs q2h =
        find_best_thresh preds (scores ++ [(q, v2)]) na_probs q2h) := by
  constructor
  · intro scores na_probs q2h t hmiss
    induction scores with
    | nil =>
      rcases hmiss with ⟨kv, hkv, _⟩
      exact absurd hkv (List.not_mem_nil kv)
    | cons kv rest ih =>
      rw [apply_no_ans_threshold, List.mapM_cons]
      rcases hmiss with ⟨kv0, hkv0, hna0⟩
      rcases List.mem_cons.mp hkv0 with heq | hmem
      · subst heq
        simp only [pyGet, hna0]
        exact ⟨"KeyError", rfl⟩
      · cases hstep : pyGet na_probs kv.1 with
        | error e => exact ⟨e, rfl⟩
        | ok p =>
          simp only [exceptBind_ok]
          by_cases hgt : p > t
          · simp only [if_pos hgt]
            cases hh : pyGet q2h kv.1 with
            | error e => exact ⟨e, rfl⟩
            | ok h =>
              simp only [exceptBind_ok]
              rcases ih ⟨kv0, hmem, hna0⟩ with ⟨msg, hmsg⟩
              rw [apply_no_ans_threshold] at hmsg
              exact ⟨msg, by rw [hmsg]; rfl⟩
          · simp only [if_neg hgt]
            rcases ih ⟨kv0, hmem, hna0⟩ with ⟨msg, hmsg⟩
            rw [apply_no_ans_threshold] at hmsg
            exact ⟨msg, by rw [hmsg]; rfl⟩
  · intro preds scores na_probs q2h q v1 v2 hq
    have hne : ∀ qid ∈ (sortByVal na_probs).map Prod.fst, qid ≠ q := by
      intro qid hmem heq
      exact hq (heq ▸ mem_keys_sortByVal na_probs qid hmem)
    rw [find_best_thresh, find_best_thresh,
      fbtLoop_append_notin preds scores na_probs q2h q v1 _ hne,
      fbtLoop_append_notin preds scores na_probs q2h q v2 _ hne]
    simp [List.length_append]

/-- C9 amended, witness: the missing-key failure at a concrete input, and the
    sweep invariance at concrete score values 5 and 7 for the extra id. -/
theorem claim_C9_amended_witness :
    (∃ msg, apply_no_ans_threshold [("q1", (1 : Rat))] [] [("q1", true)] 0 =
      Except.error msg) ∧
    find_best_thresh [("q1", "x")] ([("q1", (1 : Rat))] ++ [("q2", 5)])
        [("q1", 1/2)] [("q1", true)] =
      find_best_thresh [("q1", "x")] ([("q1", (1 : Rat))] ++ [("q2", 7)])
        [("q1", 1/2)] [("q1", true)] :=
  ⟨claim_C9_amended.1 [("q1", (1 : Rat))] [] [("q1", true)] 0
      ⟨("q1", (1 : Rat)), by decide, rfl⟩,
   claim_C9_amended.2 [("q1", "x")] [("q1", (1 : Rat))] [("q1", 1/2)]
      [("q1", true)] "q2" 5 7 (by decide)⟩

/-- C10: make_eval_dict on empty score mappings with no qid subset divides by
    a zero total, and evaluate with an empty predictions mapping therefore
    terminates with the unhandled ZeroDivisionError instead of a summary. -/
theorem claim_C10 :
    (∀ f1_scores : List (String × Rat),
      make_eval_dict [] f1_scores none = Except.error "ZeroDivisionError") ∧
    (∀ (dataset : List Paragraph) (na_probs_file : Option (List (String × Rat))),
      evaluate dataset [] na_probs_file = Except.error "ZeroDivisionError") := by
  constructor
  · intro f1_scores; rfl
  · intro dataset na_probs_file
    rw [evaluate]
    simp only [get_raw_scores_nil_preds]
    rfl

/-! Claim C6: normalize_answer is idempotent.  The development characterizes
    the fixed points of remove_articles through the maximal word runs of the
    string, and shows that the output of the full pipeline is such a fixed
    point whose characters are also fixed by lowering and punctuation
    stripping and whose words are restored by a second whitespace split. -/

theorem twAppendNeg (p : Char → Bool) (c : Char) (hc : p c = false) :
    ∀ (xs ys : List Char), ((xs ++ c :: ys).takeWhile p) = xs.takeWhile p := by
  intro xs ys
  induction xs with
  | nil => simp [List.takeWhile_cons, hc]
  | cons x xs ih =>
    by_cases hx : p x = true
    · simp [List.takeWhile_cons, hx, ih]
    · simp only [Bool.not_eq_true] at hx
      simp [List.takeWhile_cons, hx]

theorem dwAppendNeg (p : Char → Bool) (c : Char) (hc : p c = false) :
    ∀ (xs ys : List Char),
      ((xs ++ c :: ys).dropWhile p) = xs.dropWhile p ++ c :: ys := by
  intro xs ys
  induction xs with
  | nil => simp [List.dropWhile_cons, hc]
  | cons x xs ih =>
    by_cases hx : p x = true
    · simp [List.dropWhile_cons, hx, ih]
    · simp only [Bool.not_eq_true] at hx
      simp [List.dropWhile_cons, hx]

theorem twAll (p : Char → Bool) :
    ∀ xs : List Char, (∀ x ∈ xs, p x = true) → xs.takeWhile p = xs := by
  intro xs
  induction xs with
  | nil => intro _; rfl
  | cons x xs ih =>
    intro h
    rw [List.takeWhile_cons, if_pos (h x (List.mem_cons_self x xs)),
      ih (fun a ha => h a (List.mem_cons_of_mem x ha))]

theorem dwAll (p : Char → Bool) :
    ∀ xs : List Char, (∀ x ∈ xs, p x = true) → xs.dropWhile p = [] := by
  intro xs
  induction xs with
  | nil => intro _; rfl
  | cons x xs ih =>
    intro h
    rw [List.dropWhile_cons, if_pos (h x (List.mem_cons_self x xs)),
      ih (fun a ha => h a (List.mem_cons_of_mem x ha))]

theorem dwLen (p : Char → Bool) :
    ∀ l : List Char, (l.dropWhile p).length ≤ l.length := by
  intro l
  induction l with
  | nil => exact Nat.le_refl 0
  | cons x xs ih =>
    by_cases hx : p x = true
    · rw [List.dropWhile_cons, if_pos hx]
      exact Nat.le_succ_of_le ih
    · simp only [Bool.not_eq_true] at hx
      rw [List.dropWhile_cons, if_neg (by simp [hx])]

theorem dwHead (p : Char → Bool) (l : List Char) :
    l.dropWhile p = [] ∨
      ∃ c cs, l.dropWhile p = c :: cs ∧ p c = false := by
  induction l with
  | nil => exact Or.inl rfl
  | cons x xs ih =>
    by_cases hx : p x = true
    · rw [List.dropWhile_cons, if_pos hx]
      exact ih
    · simp only [Bool.not_eq_true] at hx
      rw [List.dropWhile_cons, if_neg (by simp [hx])]
      exact Or.inr ⟨x, xs, rfl, hx⟩

theorem twMem (p : Char → Bool) :
    ∀ (l : List Char) (x : Char), x ∈ l.takeWhile p → x ∈ l ∧ p x = true := by
  intro l
  induction l with
  | nil => intro x hx; exact absurd hx (List.not_mem_nil x)
  | cons a as ih =>
    intro x hx
    by_cases ha : p a = true
    · rw [List.takeWhile_cons, if_pos ha] at hx
      rcases List.mem_cons.mp hx with rfl | hx
      · exact ⟨List.mem_cons_self x as, ha⟩
      · obtain ⟨h1, h2⟩ := ih x hx
        exact ⟨List.mem_cons_of_mem a h1, h2⟩
    · rw [List.takeWhile_cons, if_neg ha] at hx
      exact absurd hx (List.not_mem_nil x)

theorem dwMem (p : Char → Bool) :
    ∀ (l : List Char) (x : Char), x ∈ l.dropWhile p → x ∈ l := by
  intro l
  induction l with
  | nil => intro x hx; exact hx
  | cons a as ih =>
    intro x hx
    by_cases ha : p a = true
    · rw [List.dropWhile_cons, if_pos ha] at hx
      exact List.mem_cons_of_mem a (ih x hx)
    · rw [List.dropWhile_cons, if_neg ha] at hx
      exact hx

theorem srGo_spec (p : Char → Bool) :
    ∀ (l cur : List Char),
      srGo p cur l =
        (if cur ++ l.takeWhile p = [] then [] else [cur ++ l.takeWhile p]) ++
          splitRuns p (l.dropWhile p) := by
  intro l
  induction l with
  | nil =>
    intro cur
    simp [srGo, splitRuns]
  | cons c cs ih =>
    intro cur
    by_cases hc : p c = true
    · rw [List.takeWhile_cons, if_pos hc, List.dropWhile_cons, if_pos hc]
      rw [srGo, if_pos hc, ih (cur ++ [c])]
      simp
    · have hc2 : p c = false := by simpa using hc
      have htw : List.takeWhile p (c :: cs) = [] := by
        rw [List.takeWhile_cons, if_neg (by simp [hc2])]
      have hdw : List.dropWhile p (c :: cs) = c :: cs := by
        rw [List.dropWhile_cons, if_neg (by simp [hc2])]
      have hsplit : splitRuns p (c :: cs) = splitRuns p cs := by
        rw [splitRuns, srGo, if_neg (by simp [hc2]), if_pos rfl]
        rfl
      rw [htw, hdw, List.append_nil, hsplit]
      rw [srGo, if_neg (by simp [hc2])]
      by_cases hcur : cur = []
      · rw [if_pos hcur, if_pos hcur, List.nil_append]
        rfl
      · rw [if_neg hcur, if_neg hcur]
        rfl

theorem splitRuns_neg (p : Char → Bool) (c : Char) (cs : List Char)
    (hc : p c = false) : splitRuns p (c :: cs) = splitRuns p cs := by
  rw [splitRuns, srGo, if_neg (by simp [hc]), if_pos rfl]
  rfl

theorem splitRuns_pos (p : Char → Bool) (c : Char) (cs : List Char)
    (hc : p c = true) :
    splitRuns p (c :: cs) =
      (c :: cs.takeWhile p) :: splitRuns p (cs.dropWhile p) := by
  rw [splitRuns, srGo, if_pos hc, List.nil_append, srGo_spec p cs [c]]
  simp

theorem raGo_spec :
    ∀ (l cur : List Char),
      raGo cur l = raFlush (cur ++ l.takeWhile isWordChar) ++
        removeArticles (l.dropWhile isWordChar) := by
  intro l
  induction l with
  | nil =>
    intro cur
    simp [raGo, removeArticles, List.takeWhile_nil, List.dropWhile_nil]
    rfl
  | cons c cs ih =>
    intro cur
    by_cases hc : isWordChar c = true
    · rw [List.takeWhile_cons, if_pos hc, List.dropWhile_cons, if_pos hc]
      rw [raGo, if_pos hc, ih (cur ++ [c])]
      rw [List.append_assoc]
      rfl
    · have hc2 : isWordChar c = false := by simpa using hc
      rw [List.takeWhile_cons, if_neg (by simp [hc2]), List.dropWhile_cons,
        if_neg (by simp [hc2]), List.append_nil]
      rw [raGo, if_neg (by simp [hc2])]
      have hra : removeArticles (c :: cs) = c :: raGo [] cs := by
        rw [removeArticles, raGo, if_neg (by simp [hc2])]
        rfl
      rw [hra]

theorem ra_nonword (c : Char) (cs : List Char) (hc : isWordChar c = false) :
    removeArticles (c :: cs) = c :: removeArticles cs := by
  rw [removeArticles, raGo, if_neg (by simp [hc])]
  rfl

theorem ra_word (c : Char) (cs : List Char) (hc : isWordChar c = true) :
    removeArticles (c :: cs) =
      raFlush (c :: cs.takeWhile isWordChar) ++
        removeArticles (cs.dropWhile isWordChar) := by
  rw [removeArticles, raGo, if_pos hc, List.nil_append, raGo_spec cs [c]]
  rfl

theorem spaceNotWord (c : Char) (h : pyIsSpace c = true) :
    isWordChar c = false := by
  simp only [pyIsSpace, Bool.or_eq_true, Bool.and_eq_true, beq_iff_eq,
    decide_eq_true_eq] at h
  simp only [isWordChar, Bool.or_eq_false_iff, Bool.and_eq_false_iff,
    decide_eq_false_iff_not, beq_eq_false_iff_ne, ne_eq]
  omega

theorem wordNotSpace (c : Char) (h : isWordChar c = true) :
    pyIsSpace c = false := by
  simp only [isWordChar, Bool.or_eq_true, Bool.and_eq_true, beq_iff_eq,
    decide_eq_true_eq] at h
  simp only [pyIsSpace, Bool.or_eq_false_iff, Bool.and_eq_false_iff,
    decide_eq_false_iff_not, beq_eq_false_iff_ne, ne_eq]
  omega

theorem lowerChar_idem (c : Char) : lowerChar (lowerChar c) = lowerChar c := by
  by_cases h : 65 ≤ c.toNat ∧ c.toNat ≤ 90
  · have h1 : lowerChar c = Char.ofNat (c.toNat + 32) := by
      rw [lowerChar, if_pos h]
    have hv : (Char.ofNat (c.toNat + 32)).toNat = c.toNat + 32 := by
      unfold Char.ofNat
      rw [dif_pos (Or.inl (by omega))]
      rfl
    rw [h1, lowerChar, hv, if_neg (by omega)]
  · have h1 : lowerChar c = c := by rw [lowerChar, if_neg h]
    rw [h1, h1]

theorem raFlush_mem (w : List Char) (x : Char) (hx : x ∈ raFlush w) :
    x ∈ w ∨ x = ' ' := by
  rw [raFlush] at hx
  by_cases hw : w = []
  · rw [if_pos hw] at hx
    exact absurd hx (List.not_mem_nil x)
  · rw [if_neg hw] at hx
    by_cases ha : isArticle w = true
    · rw [if_pos ha] at hx
      rcases List.mem_cons.mp hx with rfl | hx
      · exact Or.inr rfl
      · exact absurd hx (List.not_mem_nil x)
    · rw [if_neg ha] at hx
      exact Or.inl hx

theorem noArt_nil : noArt [] := by
  intro w hw
  exact absurd hw (List.not_mem_nil w)

theorem noArt_cons_nonword (c : Char) (cs : List Char)
    (hc : isWordChar c = false) : noArt (c :: cs) ↔ noArt cs := by
  unfold noArt wordRuns
  rw [splitRuns_neg isWordChar c cs hc]

theorem noArt_cons_word (c : Char) (cs : List Char)
    (hc : isWordChar c = true) :
    noArt (c :: cs) ↔
      (isArticle (c :: cs.takeWhile isWordChar) = false ∧
        noArt (cs.dropWhile isWordChar)) := by
  unfold noArt wordRuns
  rw [splitRuns_pos isWordChar c cs hc]
  constructor
  · intro h
    exact ⟨h _ (List.mem_cons_self _ _), fun w hw => h w (List.mem_cons_of_mem _ hw)⟩
  · rintro ⟨h1, h2⟩ w hw
    rcases List.mem_cons.mp hw with rfl | hw
    · exact h1
    · exact h2 w hw

theorem ra_fixed_iff_aux :
    ∀ (n : Nat) (t : List Char), t.length ≤ n →
      (removeArticles t = t ↔ noArt t) := by
  intro n
  induction n with
  | zero =>
    intro t ht
    have hnil : t = [] := List.length_eq_zero.mp (Nat.le_zero.mp ht)
    subst hnil
    exact iff_of_true rfl noArt_nil
  | succ n ih =>
    intro t ht
    cases t with
    | nil => exact iff_of_true rfl noArt_nil
    | cons c cs =>
      by_cases hc : isWordChar c = true
      · rw [ra_word c cs hc, noArt_cons_word c cs hc]
        by_cases ha : isArticle (c :: cs.takeWhile isWordChar) = true
        · have hf : raFlush (c :: cs.takeWhile isWordChar) = [' '] := by
            rw [raFlush, if_neg (List.cons_ne_nil _ _), if_pos ha]
          rw [hf]
          constructor
          · intro heq
            have hch : ' ' = c := by
              have := List.head_eq_of_cons_eq heq
              exact this
            rw [← hch] at hc
            exact absurd hc (by decide)
          · rintro ⟨h1, _⟩
            exact absurd ha (by simp [h1])
        · have ha2 : isArticle (c :: cs.takeWhile isWordChar) = false := by
            simpa using ha
          have hf : raFlush (c :: cs.takeWhile isWordChar) =
              c :: cs.takeWhile isWordChar := by
            rw [raFlush, if_neg (List.cons_ne_nil _ _), if_neg (by simp [ha2])]
          rw [hf]
          have hsplit : (c :: cs.takeWhile isWordChar) ++
              cs.dropWhile isWordChar = c :: cs := by
            rw [List.cons_append, List.takeWhile_append_dropWhile]
          have hrest := ih (cs.dropWhile isWordChar)
            (le_trans (dwLen isWordChar cs) (Nat.le_of_succ_le_succ ht))
          constructor
          · intro heq
            refine ⟨ha2, hrest.mp ?_⟩
            exact List.append_cancel_left (heq.trans hsplit.symm)
          · rintro ⟨_, h2⟩
            rw [hrest.mpr h2, hsplit]
      · have hc2 : isWordChar c = false := by simpa using hc
        rw [ra_nonword c cs hc2, noArt_cons_nonword c cs hc2]
        have hcs := ih cs (Nat.le_of_succ_le_succ ht)
        constructor
        · intro heq
          have h2 : removeArticles cs = cs := List.tail_eq_of_cons_eq heq
          exact hcs.mp h2
        · intro hn
          rw [hcs.mpr hn]

/-- The fixed points of remove_articles are exactly the strings with no
    standing article: the substitution changes nothing iff no maximal word
    run is a, an or the. -/
theorem ra_fixed_iff (t : List Char) : removeArticles t = t ↔ noArt t :=
  ra_fixed_iff_aux t.length t (Nat.le_refl _)

theorem runsSplit_aux :
    ∀ (n : Nat) (xs : List Char), xs.length ≤ n →
      ∀ (c : Char) (ys : List Char), isWordChar c = false →
        wordRuns (xs ++ c :: ys) = wordRuns xs ++ wordRuns (c :: ys) := by
  intro n
  induction n with
  | zero =>
    intro xs hxs c ys hc
    have hnil : xs = [] := List.length_eq_zero.mp (Nat.le_zero.mp hxs)
    subst hnil
    rw [List.nil_append]
    rfl
  | succ n ih =>
    intro xs hxs c ys hc
    cases xs with
    | nil =>
      rw [List.nil_append]
      rfl
    | cons a as =>
      by_cases ha : isWordChar a = true
      · rw [List.cons_append]
        unfold wordRuns
        rw [splitRuns_pos isWordChar a _ ha, splitRuns_pos isWordChar a as ha]
        rw [twAppendNeg isWordChar c hc as ys, dwAppendNeg isWordChar c hc as ys]
        have := ih (as.dropWhile isWordChar)
          (le_trans (dwLen isWordChar as) (Nat.le_of_succ_le_succ hxs)) c ys hc
        unfold wordRuns at this
        rw [this, List.cons_append]
      · have ha2 : isWordChar a = false := by simpa using ha
        rw [List.cons_append]
        unfold wordRuns
        rw [splitRuns_neg isWordChar a _ ha2, splitRuns_neg isWordChar a as ha2]
        have := ih as (Nat.le_of_succ_le_succ hxs) c ys hc
        unfold wordRuns at this
        exact this

/-- Splitting into word runs distributes over a separator that is not a word
    character. -/
theorem runsSplit (xs : List Char) (c : Char) (ys : List Char)
    (hc : isWordChar c = false) :
    wordRuns (xs ++ c :: ys) = wordRuns xs ++ wordRuns (c :: ys) :=
  runsSplit_aux xs.length xs (Nat.le_refl _) c ys hc

theorem noArt_split (xs : List Char) (c : Char) (ys : List Char)
    (hc : isWordChar c = false) :
    noArt (xs ++ c :: ys) ↔ noArt xs ∧ noArt (c :: ys) := by
  unfold noArt
  rw [runsSplit xs c ys hc]
  constructor
  · intro h
    exact ⟨fun w hw => h w (List.mem_append_left _ hw),
      fun w hw => h w (List.mem_append_right _ hw)⟩
  · rintro ⟨h1, h2⟩ w hw
    rcases List.mem_append.mp hw with hw | hw
    · exact h1 w hw
    · exact h2 w hw

theorem runs_allword (w : List Char) (hw : w ≠ [])
    (hall : ∀ x ∈ w, isWordChar x = true) : wordRuns w = [w] := by
  cases w with
  | nil => exact absurd rfl hw
  | cons c cs =>
    unfold wordRuns
    rw [splitRuns_pos isWordChar c cs (hall c (List.mem_cons_self c cs)),
      twAll isWordChar cs (fun x hx => hall x (List.mem_cons_of_mem c hx)),
      dwAll isWordChar cs (fun x hx => hall x (List.mem_cons_of_mem c hx))]
    rfl

theorem noArt_append_allword (w z : List Char) (hw : w ≠ [])
    (hall : ∀ x ∈ w, isWordChar x = true) (ha : isArticle w = false)
    (hz : z = [] ∨ ∃ d ds, z = d :: ds ∧ isWordChar d = false)
    (hnz : noArt z) : noArt (w ++ z) := by
  rcases hz with rfl | ⟨d, ds, rfl, hd⟩
  · rw [List.append_nil]
    intro w' hw'
    rw [runs_allword w hw hall] at hw'
    rcases List.mem_cons.mp hw' with rfl | hw'
    · exact ha
    · exact absurd hw' (List.not_mem_nil w')
  · exact (noArt_split w d ds hd).mpr
      ⟨fun w' hw' => by
        rw [runs_allword w hw hall] at hw'
        rcases List.mem_cons.mp hw' with rfl | hw'
        · exact ha
        · exact absurd hw' (List.not_mem_nil w'), hnz⟩

theorem noArt_ra_aux :
    ∀ (n : Nat) (t : List Char), t.length ≤ n → noArt (removeArticles t) := by
  intro n
  induction n with
  | zero =>
    intro t ht
    have hnil : t = [] := List.length_eq_zero.mp (Nat.le_zero.mp ht)
    subst hnil
    exact noArt_nil
  | succ n ih =>
    intro t ht
    cases t with
    | nil => exact noArt_nil
    | cons c cs =>
      have hzfact : removeArticles (cs.dropWhile isWordChar) = [] ∨
          ∃ d ds, removeArticles (cs.dropWhile isWordChar) = d :: ds ∧
            isWordChar d = false := by
        rcases dwHead isWordChar cs with hre | ⟨d, ds, hds, hd⟩
        · rw [hre]
          exact Or.inl rfl
        · rw [hds, ra_nonword d ds hd]
          exact Or.inr ⟨d, removeArticles ds, rfl, hd⟩
      have hrest := ih (cs.dropWhile isWordChar)
        (le_trans (dwLen isWordChar cs) (Nat.le_of_succ_le_succ ht))
      by_cases hc : isWordChar c = true
      · rw [ra_word c cs hc]
        by_cases ha : isArticle (c :: cs.takeWhile isWordChar) = true
        · have hf : raFlush (c :: cs.takeWhile isWordChar) = [' '] := by
            rw [raFlush, if_neg (List.cons_ne_nil _ _), if_pos ha]
          rw [hf]
          have : ([' '] : List Char) ++
              removeArticles (cs.dropWhile isWordChar) =
              ' ' :: removeArticles (cs.dropWhile isWordChar) := rfl
          rw [this, noArt_cons_nonword ' ' _ (by decide)]
          exact hrest
        · have ha2 : isArticle (c :: cs.takeWhile isWordChar) = false := by
            simpa using ha
          have hf : raFlush (c :: cs.takeWhile isWordChar) =
              c :: cs.takeWhile isWordChar := by
            rw [raFlush, if_neg (List.cons_ne_nil _ _), if_neg (by simp [ha2])]
          rw [hf]
          refine noArt_append_allword _ _ (List.cons_ne_nil _ _) ?_ ha2
            hzfact hrest
          intro x hx
          rcases List.mem_cons.mp hx with rfl | hx
          · exact hc
          · exact (twMem isWordChar cs x hx).2
      · have hc2 : isWordChar c = false := by simpa using hc
        rw [ra_nonword c cs hc2,
          noArt_cons_nonword c (removeArticles cs) hc2]
        exact ih cs (Nat.le_of_succ_le_succ ht)

/-- The output of remove_articles has no standing article: re.sub removed
    every whole-word article and the single-space replacements create no new
    word run. -/
theorem noArt_removeArticles (t : List Char) : noArt (removeArticles t) :=
  noArt_ra_aux t.length t (Nat.le_refl _)

theorem splitRuns_chunks_aux (p : Char → Bool) :
    ∀ (n : Nat) (u : List Char), u.length ≤ n →
      ∀ w ∈ splitRuns p u, w ≠ [] ∧ ∀ x ∈ w, x ∈ u ∧ p x = true := by
  intro n
  induction n with
  | zero =>
    intro u hu w hw
    have hnil : u = [] := List.length_eq_zero.mp (Nat.le_zero.mp hu)
    subst hnil
    exact absurd hw (List.not_mem_nil w)
  | succ n ih =>
    intro u hu w hw
    cases u with
    | nil => exact absurd hw (List.not_mem_nil w)
    | cons c cs =>
      by_cases hc : p c = true
      · rw [splitRuns_pos p c cs hc] at hw
        rcases List.mem_cons.mp hw with rfl | hw
        · refine ⟨List.cons_ne_nil _ _, ?_⟩
          intro x hx
          rcases List.mem_cons.mp hx with rfl | hx
          · exact ⟨List.mem_cons_self x cs, hc⟩
          · obtain ⟨h1, h2⟩ := twMem p cs x hx
            exact ⟨List.mem_cons_of_mem c h1, h2⟩
        · obtain ⟨h1, h2⟩ := ih (cs.dropWhile p)
            (le_trans (dwLen p cs) (Nat.le_of_succ_le_succ hu)) w hw
          refine ⟨h1, fun x hx => ?_⟩
          obtain ⟨h3, h4⟩ := h2 x hx
          exact ⟨List.mem_cons_of_mem c (dwMem p cs x h3), h4⟩
      · have hc2 : p c = false := by simpa using hc
        rw [splitRuns_neg p c cs hc2] at hw
        obtain ⟨h1, h2⟩ := ih cs (Nat.le_of_succ_le_succ hu) w hw
        refine ⟨h1, fun x hx => ?_⟩
        obtain ⟨h3, h4⟩ := h2 x hx
        exact ⟨List.mem_cons_of_mem c h3, h4⟩

theorem splitRuns_chunks (p : Char → Bool) (u : List Char) :
    ∀ w ∈ splitRuns p u, w ≠ [] ∧ ∀ x ∈ w, x ∈ u ∧ p x = true :=
  splitRuns_chunks_aux p u.length u (Nat.le_refl _)

theorem chunks_noArt_aux :
    ∀ (n : Nat) (u : List Char), u.length ≤ n → noArt u →
      ∀ w ∈ pySplit u, noArt w := by
  intro n
  induction n with
  | zero =>
    intro u hu _ w hw
    have hnil : u = [] := List.length_eq_zero.mp (Nat.le_zero.mp hu)
    subst hnil
    exact absurd hw (List.not_mem_nil w)
  | succ n ih =>
    intro u hu hna w hw
    cases u with
    | nil => exact absurd hw (List.not_mem_nil w)
    | cons c cs =>
      by_cases hsp : pyIsSpace c = true
      · rw [pySplit, splitRuns_neg _ c cs (by simp [hsp])] at hw
        have hcs : noArt cs :=
          (noArt_cons_nonword c cs (spaceNotWord c hsp)).mp hna
        exact ih cs (Nat.le_of_succ_le_succ hu) hcs w hw
      · have hsp2 : pyIsSpace c = false := by simpa using hsp
        rw [pySplit, splitRuns_pos _ c cs (by simp [hsp2])] at hw
        have hu2 : (c :: cs.takeWhile (fun x => !pyIsSpace x)) ++
            cs.dropWhile (fun x => !pyIsSpace x) = c :: cs := by
          rw [List.cons_append, List.takeWhile_append_dropWhile]
        rcases dwHead (fun x => !pyIsSpace x) cs with hre |
          ⟨d, ds, hds, hd⟩
        · rcases List.mem_cons.mp hw with rfl | hw
          · have : c :: cs.takeWhile (fun x => !pyIsSpace x) = c :: cs := by
              have := hu2
              rw [hre, List.append_nil] at this
              exact this
            rw [this]
            exact hna
          · rw [hre] at hw
            have hemp : splitRuns (fun c => !pyIsSpace c)
                ([] : List Char) = [] := rfl
            rw [hemp] at hw
            exact absurd hw (List.not_mem_nil w)
        · have hdsp : pyIsSpace d = true := by
            have : (!pyIsSpace d) = false := hd
            simpa using this
          have hdw : isWordChar d = false := spaceNotWord d hdsp
          have hsplitu : noArt ((c :: cs.takeWhile (fun x => !pyIsSpace x)) ++
              d :: ds) ↔ _ :=
            noArt_split (c :: cs.takeWhile (fun x => !pyIsSpace x)) d ds hdw
          have hna2 : noArt ((c :: cs.takeWhile (fun x => !pyIsSpace x)) ++
              d :: ds) := by
            rw [← hds, hu2]
            exact hna
          obtain ⟨hw0, hrest⟩ := (noArt_split _ d ds hdw).mp hna2
          rcases List.mem_cons.mp hw with rfl | hw
          · exact hw0
          · rw [hds] at hw
            refine ih (d :: ds) ?_ hrest w hw
            have hlen : (cs.dropWhile (fun x => !pyIsSpace x)).length ≤
                cs.length := dwLen _ cs
            rw [hds] at hlen
            exact le_trans hlen (Nat.le_of_succ_le_succ hu)

theorem ch_ra_aux :
    ∀ (n : Nat) (t : List Char), t.length ≤ n →
      ∀ x ∈ removeArticles t, x ∈ t ∨ x = ' ' := by
  intro n
  induction n with
  | zero =>
    intro t ht x hx
    have hnil : t = [] := List.length_eq_zero.mp (Nat.le_zero.mp ht)
    subst hnil
    exact absurd hx (List.not_mem_nil x)
  | succ n ih =>
    intro t ht x hx
    cases t with
    | nil => exact absurd hx (List.not_mem_nil x)
    | cons c cs =>
      by_cases hc : isWordChar c = true
      · rw [ra_word c cs hc] at hx
        rcases List.mem_append.mp hx with hx | hx
        · rcases raFlush_mem _ x hx with hx | hx
          · rcases List.mem_cons.mp hx with rfl | hx
            · exact Or.inl (List.mem_cons_self x cs)
            · exact Or.inl (List.mem_cons_of_mem c
                (twMem isWordChar cs x hx).1)
          · exact Or.inr hx
        · rcases ih (cs.dropWhile isWordChar)
            (le_trans (dwLen isWordChar cs) (Nat.le_of_succ_le_succ ht))
            x hx with hx | hx
          · exact Or.inl (List.mem_cons_of_mem c (dwMem isWordChar cs x hx))
          · exact Or.inr hx
      · have hc2 : isWordChar c = false := by simpa using hc
        rw [ra_nonword c cs hc2] at hx
        rcases List.mem_cons.mp hx with rfl | hx
        · exact Or.inl (List.mem_cons_self x cs)
        · rcases ih cs (Nat.le_of_succ_le_succ ht) x hx with hx | hx
          · exact Or.inl (List.mem_cons_of_mem c hx)
          · exact Or.inr hx

theorem joinWords_cons2 (w w2 : List Char) (ws : List (List Char)) :
    joinWords (w :: w2 :: ws) = w ++ ' ' :: joinWords (w2 :: ws) := rfl

theorem ch_join (W : List (List Char)) :
    ∀ x ∈ joinWords W, (∃ w ∈ W, x ∈ w) ∨ x = ' ' := by
  induction W with
  | nil => intro x hx; exact absurd hx (List.not_mem_nil x)
  | cons w ws ih =>
    intro x hx
    cases ws with
    | nil =>
      exact Or.inl ⟨w, List.mem_cons_self w [], hx⟩
    | cons w2 ws2 =>
      rw [joinWords_cons2] at hx
      rcases List.mem_append.mp hx with hx | hx
      · exact Or.inl ⟨w, List.mem_cons_self w _, hx⟩
      · rcases List.mem_cons.mp hx with rfl | hx
        · exact Or.inr rfl
        · rcases ih x hx with ⟨w', hw', hxw⟩ | hx
          · exact Or.inl ⟨w', List.mem_cons_of_mem w hw', hxw⟩
          · exact Or.inr hx

theorem noArt_join (W : List (List Char)) (h : ∀ w ∈ W, noArt w) :
    noArt (joinWords W) := by
  induction W with
  | nil => exact noArt_nil
  | cons w ws ih =>
    cases ws with
    | nil => exact h w (List.mem_cons_self w [])
    | cons w2 ws2 =>
      rw [joinWords_cons2]
      refine (noArt_split w ' ' (joinWords (w2 :: ws2)) (by decide)).mpr
        ⟨h w (List.mem_cons_self w _), ?_⟩
      rw [noArt_cons_nonword ' ' _ (by decide)]
      exact ih (fun w' hw' => h w' (List.mem_cons_of_mem w hw'))

theorem split_join (W : List (List Char))
    (h : ∀ w ∈ W, w ≠ [] ∧ ∀ x ∈ w, pyIsSpace x = false) :
    pySplit (joinWords W) = W := by
  induction W with
  | nil => rfl
  | cons w ws ih =>
    obtain ⟨hwne, hwch⟩ := h w (List.mem_cons_self w ws)
    cases ws with
    | nil =>
      cases w with
      | nil => exact absurd rfl hwne
      | cons c cs =>
        have hc : pyIsSpace c = false := hwch c (List.mem_cons_self c cs)
        rw [joinWords, pySplit, splitRuns_pos _ c cs (by simp [hc]),
          twAll _ cs (fun x hx => by
            simp [hwch x (List.mem_cons_of_mem c hx)]),
          dwAll _ cs (fun x hx => by
            simp [hwch x (List.mem_cons_of_mem c hx)])]
        rfl
    | cons w2 ws2 =>
      cases w with
      | nil => exact absurd rfl hwne
      | cons c cs =>
        have hc : pyIsSpace c = false := hwch c (List.mem_cons_self c cs)
        have hcs : ∀ x ∈ cs, (!pyIsSpace x) = true := fun x hx => by
          simp [hwch x (List.mem_cons_of_mem c hx)]
        rw [joinWords_cons2, List.cons_append, pySplit,
          splitRuns_pos _ c _ (by simp [hc]),
          twAppendNeg _ ' ' (by decide) cs (joinWords (w2 :: ws2)),
          dwAppendNeg _ ' ' (by decide) cs (joinWords (w2 :: ws2)),
          twAll _ cs hcs, dwAll _ cs hcs, List.nil_append,
          splitRuns_neg _ ' ' _ (by decide)]
        have := ih (fun w' hw' => h w' (List.mem_cons_of_mem _ hw'))
        rw [pySplit] at this
        rw [this]

theorem map_fixes {f : Char → Char} :
    ∀ t : List Char, (∀ x ∈ t, f x = x) → t.map f = t := by
  intro t
  induction t with
  | nil => intro _; rfl
  | cons c cs ih =>
    intro h
    rw [List.map_cons, h c (List.mem_cons_self c cs),
      ih (fun x hx => h x (List.mem_cons_of_mem c hx))]

/-- Idempotence at the level of character lists: one pass of the pipeline
    yields words separated by single spaces whose characters are fixed by
    lowering and punctuation stripping, contain no whitespace, and leave no
    article standing; a second pass therefore changes nothing. -/
theorem normalizeL_idem (L : List Char) :
    normalizeL (normalizeL L) = normalizeL L := by
  have hchunks := splitRuns_chunks (fun c => !pyIsSpace c)
    (removeArticles (removePunc (pyLower L)))
  have hW : ∀ w ∈ pySplit (removeArticles (removePunc (pyLower L))),
      w ≠ [] ∧ ∀ x ∈ w, pyIsSpace x = false := by
    intro w hw
    obtain ⟨h1, h2⟩ := hchunks w hw
    refine ⟨h1, fun x hx => ?_⟩
    have := (h2 x hx).2
    simpa using this
  have hChar : ∀ x ∈ joinWords (pySplit (removeArticles (removePunc
      (pyLower L)))), lowerChar x = x ∧ isPunct x = false := by
    intro x hx
    rcases ch_join _ x hx with ⟨w, hw, hxw⟩ | rfl
    · have hxu : x ∈ removeArticles (removePunc (pyLower L)) :=
        ((hchunks w hw).2 x hxw).1
      rcases ch_ra_aux (removePunc (pyLower L)).length _ (Nat.le_refl _)
        x hxu with hxrp | rfl
      · have hxl : x ∈ pyLower L ∧ (!isPunct x) = true := by
          have := List.mem_filter.mp hxrp
          exact this
      -- the filter predicate of removePunc
        constructor
        · rcases List.mem_map.mp hxl.1 with ⟨y, _, rfl⟩
          exact lowerChar_idem y
        · simpa using hxl.2
      · exact ⟨by decide, by decide⟩
    · exact ⟨by decide, by decide⟩
  have hlow : pyLower (joinWords (pySplit (removeArticles (removePunc
      (pyLower L))))) = joinWords (pySplit (removeArticles (removePunc
      (pyLower L)))) :=
    map_fixes _ (fun x hx => (hChar x hx).1)
  have hrp : removePunc (joinWords (pySplit (removeArticles (removePunc
      (pyLower L))))) = joinWords (pySplit (removeArticles (removePunc
      (pyLower L)))) :=
    filter_all _ _ (fun x hx => by simp [(hChar x hx).2])
  have hnoart : noArt (joinWords (pySplit (removeArticles (removePunc
      (pyLower L))))) := by
    refine noArt_join _ ?_
    intro w hw
    exact chunks_noArt_aux (removeArticles (removePunc (pyLower L))).length
      _ (Nat.le_refl _) (noArt_removeArticles _) w hw
  have hra : removeArticles (joinWords (pySplit (removeArticles (removePunc
      (pyLower L))))) = joinWords (pySplit (removeArticles (removePunc
      (pyLower L)))) :=
    (ra_fixed_iff _).mpr hnoart
  have hsj : pySplit (joinWords (pySplit (removeArticles (removePunc
      (pyLower L))))) = pySplit (removeArticles (removePunc (pyLower L))) :=
    split_join _ hW
  have hN : normalizeL L = joinWords (pySplit (removeArticles (removePunc
      (pyLower L)))) := rfl
  rw [hN, normalizeL, white_space_fix, hlow, hrp, hra, hsj]

/-- C6: normalize_answer is idempotent on every string. -/
theorem claim_C6 (s : String) :
    normalize_answer (normalize_answer s) = normalize_answer s :=
  congrArg String.mk (normalizeL_idem s.data)
